import Mathlib

/-!
# Verification of the London-Expo-Calendar discovery/reconciliation engine

A shallow embedding of `scripts/search_google.py`: the temporal normalizer
(`parse_date_range_text`, `parse_possible_datetime`, `parse_ics_datetime`),
the structured-extraction date kernels, the sector classifier and event
unifier, the manual-seed loader, and the reconciliation engine of `main`
(identity-key matching, date-change replacement, url backfill, manual-seed
insertion, horizon pruning).

Modelling conventions:
* Python `datetime` values are the structure `PyDateTime` below; aware
  datetimes compare by instant (`dtKey`), mixed naive/aware comparison is a
  `TypeError`.  The `Europe/London` zone is modelled by the current EU DST
  rule (BST between 02:00 wall on the last Sunday of March and 02:00 wall on
  the last Sunday of October) for all years; no claim touches a DST
  transition hour or a pre-1972 date.
* Python code that can raise an uncaught exception is modelled in
  `Except PyErr`; an exception swallowed by a `try/except` in the source is
  an `Option` at that point.
* Strings are Lean `String`s; Python string methods are re-implemented on
  the character list (`pyLower`, `pyStrip`, ...) with ASCII semantics, which
  is exact on every string the claims and the source constants involve.
* YAML scalars reaching `str(value)` are modelled as their string form, and
  a YAML-null `url`/`venue` is modelled like the empty string (both are
  falsy at every use site).
-/

/-! ## Python string primitives -/

def lowerChar (c : Char) : Char :=
  if 'A' ≤ c ∧ c ≤ 'Z' then Char.ofNat (c.toNat + 32) else c

/-- Python `str.lower` (ASCII). -/
def pyLower (s : String) : String := String.mk (s.data.map lowerChar)

def isPySpace (c : Char) : Bool :=
  c = ' ' ∨ c = '\t' ∨ c = '\n' ∨ c = '\r' ∨ c = '\x0b' ∨ c = '\x0c'

/-- Python `str.strip` (ASCII whitespace). -/
def pyStrip (s : String) : String :=
  String.mk (((s.data.dropWhile isPySpace).reverse.dropWhile isPySpace).reverse)

/-- Python slicing `s[:n]` (by code point). -/
def pyTake (n : Nat) (s : String) : String := String.mk (s.data.take n)

/-- Python `str.endswith` for a single-character suffix. -/
def pyEndsWithChar (s : String) (c : Char) : Bool :=
  match s.data.reverse with
  | [] => false
  | x :: _ => x = c

/-- Python `s.replace("Z", "+00:00")` (single-character pattern). -/
def pyReplaceZ (s : String) : String :=
  String.mk (s.data.flatMap (fun c => if c = 'Z' then "+00:00".data else [c]))

def isDigitChar (c : Char) : Bool := '0' ≤ c ∧ c ≤ '9'

def isAlphaChar (c : Char) : Bool := ('A' ≤ c ∧ c ≤ 'Z') ∨ ('a' ≤ c ∧ c ≤ 'z')

/-- Python `int` on a non-empty string of ASCII digits. -/
def natOfDigits (cs : List Char) : Nat :=
  cs.foldl (fun n c => n * 10 + (c.toNat - 48)) 0

def allDigits (cs : List Char) : Bool := cs.all isDigitChar

/-! ## Proleptic-Gregorian calendar arithmetic -/

/-- Python `calendar.isleap` / the rule used by `datetime`. -/
def isLeap (y : Nat) : Bool := y % 4 = 0 ∧ (y % 100 ≠ 0 ∨ y % 400 = 0)

def daysInMonth (y m : Nat) : Nat :=
  if m = 2 then (if isLeap y then 29 else 28)
  else if m = 4 ∨ m = 6 ∨ m = 9 ∨ m = 11 then 30
  else 31

/-- Days since 1970-01-01 of a civil date (standard shifted-epoch formula),
for years ≥ 1 (the `datetime.MINYEAR` bound). -/
def daysFromCivil (y m d : Nat) : Int :=
  let y' := if m ≤ 2 then y - 1 else y
  let era := y' / 400
  let yoe := y' % 400
  let mp := (m + 9) % 12
  let doy := (153 * mp + 2) / 5 + (d - 1)
  ((era * 146097 + yoe * 365 + yoe / 4 + doy : Nat) : Int) - (yoe / 100 : Nat) - 719468

/-- Day of week, Sunday = 0 (1970-01-01 was a Thursday). -/
def weekdaySun0 (y m d : Nat) : Int := (daysFromCivil y m d + 4) % 7

/-- Day-of-month of the last Sunday of a 31-day month. -/
def lastSunday (y m : Nat) : Nat := 31 - (weekdaySun0 y m 31).toNat

/-- Wall-clock microseconds of a field tuple, counted from the epoch. -/
def wallFieldsUSec (y m d hh mi ss us : Nat) : Int :=
  daysFromCivil y m d * 86400000000 + (hh : Int) * 3600000000 +
    (mi : Int) * 60000000 + (ss : Int) * 1000000 + (us : Int)

/-- Europe/London is on BST (UTC+1) at the given wall-clock time:
from 02:00 wall on the last Sunday of March to 02:00 wall on the last
Sunday of October (PEP 495 fold=0 resolution at the transitions). -/
def isBST (y m d hh mi ss : Nat) : Bool :=
  let w := wallFieldsUSec y m d hh mi ss 0
  let spring := wallFieldsUSec y 3 (lastSunday y 3) 2 0 0 0
  let fall := wallFieldsUSec y 10 (lastSunday y 10) 2 0 0 0
  spring ≤ w ∧ w < fall

/-! ## `datetime` objects -/

inductive PyErr where
  | valueError
  | typeError
deriving DecidableEq, Repr

/-- A `tzinfo` value as it occurs in the script: `timezone.utc`,
`ZoneInfo("Europe/London")`, or a fixed `timezone(timedelta)` offset in
microseconds (from ISO-8601 offsets). -/
inductive Tz where
  | utc
  | london
  | fixed (usec : Int)
deriving DecidableEq, Repr

structure PyDateTime where
  year : Nat
  month : Nat
  day : Nat
  hour : Nat
  minute : Nat
  second : Nat
  usecond : Nat
  tz : Option Tz
deriving DecidableEq, Repr

def wallUSec (t : PyDateTime) : Int :=
  wallFieldsUSec t.year t.month t.day t.hour t.minute t.second t.usecond

/-- `utcoffset` in microseconds (0 for a naive datetime, where it is unused). -/
def offsetUSec (t : PyDateTime) : Int :=
  match t.tz with
  | none => 0
  | some Tz.utc => 0
  | some (Tz.fixed o) => o
  | some Tz.london =>
      if isBST t.year t.month t.day t.hour t.minute t.second then 3600000000 else 0

/-- Comparison key: the instant for an aware datetime, the wall clock for a
naive one (Python compares naive datetimes field-wise, which agrees with the
wall-clock microsecond count on valid dates). -/
def dtKey (t : PyDateTime) : Int := wallUSec t - offsetUSec t

/-- Python `a < b` on datetimes: mixed naive/aware raises `TypeError`. -/
def dtLt (a b : PyDateTime) : Except PyErr Bool :=
  match a.tz, b.tz with
  | none, some _ => .error .typeError
  | some _, none => .error .typeError
  | _, _ => .ok (decide (dtKey a < dtKey b))

/-- The validating `datetime(...)` constructor (raises `ValueError`). -/
def pyDatetime (y m d hh mi ss us : Nat) (tz : Option Tz) : Except PyErr PyDateTime :=
  if 1 ≤ y ∧ y ≤ 9999 ∧ 1 ≤ m ∧ m ≤ 12 ∧ 1 ≤ d ∧ d ≤ daysInMonth y m ∧
     hh ≤ 23 ∧ mi ≤ 59 ∧ ss ≤ 59 ∧ us ≤ 999999 then
    .ok ⟨y, m, d, hh, mi, ss, us, tz⟩
  else .error .valueError

def ValidDT (t : PyDateTime) : Prop :=
  1 ≤ t.year ∧ t.year ≤ 9999 ∧ 1 ≤ t.month ∧ t.month ≤ 12 ∧ 1 ≤ t.day ∧
    t.day ≤ daysInMonth t.year t.month ∧ t.hour ≤ 23 ∧ t.minute ≤ 59 ∧
    t.second ≤ 59 ∧ t.usecond ≤ 999999

instance (t : PyDateTime) : Decidable (ValidDT t) := by unfold ValidDT; infer_instance

/-- The next civil day (used for the hour carry of `timedelta(hours=8)`). -/
def nextDay (y m d : Nat) : Nat × Nat × Nat :=
  if d < daysInMonth y m then (y, m, d + 1)
  else if m < 12 then (y, m + 1, 1)
  else (y + 1, 1, 1)

/-- Python `dt + timedelta(hours=8)`: wall-clock addition, same tzinfo. -/
def addHours8 (t : PyDateTime) : PyDateTime :=
  if t.hour + 8 ≤ 23 then { t with hour := t.hour + 8 }
  else
    let c := nextDay t.year t.month t.day
    { t with year := c.1, month := c.2.1, day := c.2.2, hour := t.hour + 8 - 24 }

/-! ## A small matcher for the five regex patterns of the source

`RE.cls p lo hi cap` is a greedy `p{lo,hi}` character-class repeat
(optionally a capture group), `RE.lit` a literal, `RE.alt` an alternation of
literals, `RE.eol` the `$` anchor (end of input or before a final newline).
Matching is leftmost with greedy backtracking, exactly `re`'s semantics for
these patterns. -/

inductive RE where
  | lit (cs : List Char)
  | alt (ls : List (List Char))
  | cls (p : Char → Bool) (lo : Nat) (hi : Option Nat) (cap : Bool)
  | eol

def startsWithList : List Char → List Char → Bool
  | [], _ => true
  | _ :: _, [] => false
  | p :: ps, c :: cs => p = c && startsWithList ps cs

/-- Backtracking over the alternatives of an `RE.alt`. -/
def tryAlt (k : List Char → Option (List String × List Char)) :
    List (List Char) → List Char → Option (List String × List Char)
  | [], _ => none
  | l :: ls, s =>
    if startsWithList l s then
      match k (s.drop l.length) with
      | some r => some r
      | none => tryAlt k ls s
    else tryAlt k ls s

/-- Greedy backtracking for an `RE.cls`: try consuming `n, n-1, ..., lo`
characters of the maximal run. -/
def tryCls (k : List Char → Option (List String × List Char)) (cap : Bool)
    (run rest : List Char) (lo : Nat) : Nat → Option (List String × List Char)
  | 0 =>
    if lo = 0 then
      match k (run ++ rest) with
      | some (caps, r) => some ((if cap then [String.mk []] else []) ++ caps, r)
      | none => none
    else none
  | n + 1 =>
    if n + 1 < lo then none
    else
      match k (run.drop (n + 1) ++ rest) with
      | some (caps, r) => some ((if cap then [String.mk (run.take (n + 1))] else []) ++ caps, r)
      | none => tryCls k cap run rest lo n

/-- Match a pattern at the start of the input, returning the captured groups
in order and the remaining input. -/
def matchSeq : List RE → List Char → Option (List String × List Char)
  | [], s => some ([], s)
  | RE.lit l :: rs, s =>
      if startsWithList l s then matchSeq rs (s.drop l.length) else none
  | RE.alt ls :: rs, s => tryAlt (fun s' => matchSeq rs s') ls s
  | RE.cls p lo hi cap :: rs, s =>
      let run := s.takeWhile p
      let rest := s.dropWhile p
      let mx := match hi with
        | some h => min h run.length
        | none => run.length
      tryCls (fun s' => matchSeq rs s') cap run rest lo mx
  | RE.eol :: rs, s =>
      if s = [] ∨ s = ['\n'] then matchSeq rs s else none

/-- `pattern.search(t)`: try each start position left to right. -/
def reSearch (pat : List RE) : List Char → Option (List String)
  | [] => (matchSeq pat []).map (fun r => r.1)
  | c :: t =>
    match matchSeq pat (c :: t) with
    | some (caps, _) => some caps
    | none => reSearch pat t

/-- `pattern.match(t)`: anchored at the start. -/
def reMatch (pat : List RE) (s : List Char) : Option (List String) :=
  (matchSeq pat s).map (fun r => r.1)

/-- Source pattern `DATE_RANGE`: one-or-two digits, optional spaces, an
en-dash or hyphen or the word to, optional spaces, one-or-two digits,
spaces, three-or-more letters, spaces, four digits; the digit runs and the
letter run are capture groups. -/
def DATE_RANGE : List RE := [
  RE.cls isDigitChar 1 (some 2) true,
  RE.cls isPySpace 0 none false,
  RE.alt [['–'], ['-'], ['t', 'o']],
  RE.cls isPySpace 0 none false,
  RE.cls isDigitChar 1 (some 2) true,
  RE.cls isPySpace 1 none false,
  RE.cls isAlphaChar 3 none true,
  RE.cls isPySpace 1 none false,
  RE.cls isDigitChar 4 (some 4) true]

/-- Source pattern `DATE_SINGLE`: one-or-two digits, spaces, three-or-more
letters, spaces, four digits. -/
def DATE_SINGLE : List RE := [
  RE.cls isDigitChar 1 (some 2) true,
  RE.cls isPySpace 1 none false,
  RE.cls isAlphaChar 3 none true,
  RE.cls isPySpace 1 none false,
  RE.cls isDigitChar 4 (some 4) true]

/-- Source pattern `ISO`: four digits, hyphen, two digits, hyphen, two
digits. -/
def ISO : List RE := [
  RE.cls isDigitChar 4 (some 4) true,
  RE.lit ['-'],
  RE.cls isDigitChar 2 (some 2) true,
  RE.lit ['-'],
  RE.cls isDigitChar 2 (some 2) true]

/-- Source pattern `EIGHT_DIGIT`: anchored four-two-two digit groups, used
with anchored match. -/
def EIGHT_DIGIT : List RE := [
  RE.cls isDigitChar 4 (some 4) true,
  RE.cls isDigitChar 2 (some 2) true,
  RE.cls isDigitChar 2 (some 2) true,
  RE.eol]

/-- Source pattern `EIGHT_TIME`: anchored compact date-time, four-two-two
digit groups, a literal T, three two-digit groups, then an optional Z, used
with anchored match. -/
def EIGHT_TIME : List RE := [
  RE.cls isDigitChar 4 (some 4) true,
  RE.cls isDigitChar 2 (some 2) true,
  RE.cls isDigitChar 2 (some 2) true,
  RE.lit ['T'],
  RE.cls isDigitChar 2 (some 2) true,
  RE.cls isDigitChar 2 (some 2) true,
  RE.cls isDigitChar 2 (some 2) true,
  RE.cls (fun c => c = 'Z') 0 (some 1) true,
  RE.eol]

/-! ## `datetime.fromisoformat` (the pre-3.11 grammar, the inverse of
`isoformat`, which is what the script's own Z-replacement targets) -/

/-- The date part: exactly four digits, hyphen, two digits, hyphen, two
digits. -/
def parseIsoDate (cs : List Char) : Option (Nat × Nat × Nat) :=
  match cs with
  | [y1, y2, y3, y4, s1, m1, m2, s2, d1, d2] =>
    if allDigits [y1, y2, y3, y4] ∧ s1 = '-' ∧ allDigits [m1, m2] ∧ s2 = '-' ∧
       allDigits [d1, d2] then
      some (natOfDigits [y1, y2, y3, y4], natOfDigits [m1, m2], natOfDigits [d1, d2])
    else none
  | _ => none

/-- CPython `_parse_hh_mm_ss_ff`: hour, optionally colon-minute,
colon-second, dot and a three- or six-digit fraction. -/
def parseHMSF (cs : List Char) : Option (Nat × Nat × Nat × Nat) :=
  match cs with
  | [a, b] =>
    if allDigits [a, b] then some (natOfDigits [a, b], 0, 0, 0) else none
  | [a, b, s1, c, d] =>
    if allDigits [a, b, c, d] ∧ s1 = ':' then
      some (natOfDigits [a, b], natOfDigits [c, d], 0, 0)
    else none
  | [a, b, s1, c, d, s2, e, f] =>
    if allDigits [a, b, c, d, e, f] ∧ s1 = ':' ∧ s2 = ':' then
      some (natOfDigits [a, b], natOfDigits [c, d], natOfDigits [e, f], 0)
    else none
  | [a, b, s1, c, d, s2, e, f, s3, g, h, i] =>
    if allDigits [a, b, c, d, e, f, g, h, i] ∧ s1 = ':' ∧ s2 = ':' ∧ s3 = '.' then
      some (natOfDigits [a, b], natOfDigits [c, d], natOfDigits [e, f],
        natOfDigits [g, h, i] * 1000)
    else none
  | [a, b, s1, c, d, s2, e, f, s3, g, h, i, j, k, l] =>
    if allDigits [a, b, c, d, e, f, g, h, i, j, k, l] ∧ s1 = ':' ∧ s2 = ':' ∧ s3 = '.' then
      some (natOfDigits [a, b], natOfDigits [c, d], natOfDigits [e, f],
        natOfDigits [g, h, i, j, k, l])
    else none
  | _ => none

/-- CPython `_parse_isoformat_time`: split at the first minus (else plus)
sign; the offset part must have length 5, 8 or 15 and the whole
`timezone(timedelta(...))` must be strictly inside a day. -/
def parseIsoTime (cs : List Char) : Option ((Nat × Nat × Nat × Nat) × Option Int) :=
  let split : Option (List Char × Char × List Char) :=
    match List.findIdx? (fun x => decide (x = '-')) cs with
    | some i => some (cs.take i, '-', cs.drop (i + 1))
    | none =>
      match List.findIdx? (fun x => decide (x = '+')) cs with
      | some i => some (cs.take i, '+', cs.drop (i + 1))
      | none => none
  match split with
  | none => (parseHMSF cs).map (fun t => (t, none))
  | some (timestr, sign, tzstr) =>
    match parseHMSF timestr with
    | none => none
    | some t =>
      if tzstr.length = 5 ∨ tzstr.length = 8 ∨ tzstr.length = 15 then
        match parseHMSF tzstr with
        | none => none
        | some tc =>
          let mag : Int := (tc.1 : Int) * 3600000000 + (tc.2.1 : Int) * 60000000 +
            (tc.2.2.1 : Int) * 1000000 + (tc.2.2.2 : Int)
          if mag < 86400000000 then
            some (t, some (if sign = '-' then -mag else mag))
          else none
      else none

/-- `datetime.fromisoformat` (raising = `none`; callers wrap it in try or
model the raise themselves).  The ten date characters, one ignored separator
character of any kind, then the time. -/
def pyFromIso (s : String) : Option PyDateTime :=
  let cs := s.data
  match parseIsoDate (cs.take 10) with
  | none => none
  | some (y, m, d) =>
    match cs.drop 11 with
    | [] => (pyDatetime y m d 0 0 0 0 none).toOption
    | tstr =>
      match parseIsoTime tstr with
      | none => none
      | some ((hh, mi, ss, us), off) =>
        (pyDatetime y m d hh mi ss us (off.map Tz.fixed)).toOption

/-! ## `datetime.isoformat` -/

def digitChar (n : Nat) : Char := Char.ofNat (48 + n % 10)

def pad2 (n : Nat) : List Char := [digitChar (n / 10), digitChar n]

def pad4 (n : Nat) : List Char :=
  [digitChar (n / 1000), digitChar (n / 100), digitChar (n / 10), digitChar n]

def pad6 (n : Nat) : List Char :=
  [digitChar (n / 100000), digitChar (n / 10000), digitChar (n / 1000),
   digitChar (n / 100), digitChar (n / 10), digitChar n]

def isoformat (t : PyDateTime) : String :=
  let base := pad4 t.year ++ ['-'] ++ pad2 t.month ++ ['-'] ++ pad2 t.day ++ ['T'] ++
    pad2 t.hour ++ [':'] ++ pad2 t.minute ++ [':'] ++ pad2 t.second ++
    (if t.usecond = 0 then [] else ['.'] ++ pad6 t.usecond)
  let tzpart : List Char :=
    match t.tz with
    | none => []
    | some _ =>
      let off := offsetUSec t
      let sign := if off < 0 then '-' else '+'
      let a := off.natAbs
      let secs := a / 1000000
      let us := a % 1000000
      [sign] ++ pad2 (secs / 3600) ++ [':'] ++ pad2 (secs % 3600 / 60) ++
        (if secs % 60 = 0 ∧ us = 0 then []
         else [':'] ++ pad2 (secs % 60) ++ (if us = 0 then [] else ['.'] ++ pad6 us))
  String.mk (base ++ tzpart)

/-! ## The temporal normalizer -/

def LONDON_TZ : Tz := Tz.london

/-- The dash/nbsp normalization at the top of `parse_date_range_text`. -/
def normalizeDashes (s : String) : String :=
  String.mk (s.data.map (fun c =>
    if c = '–' ∨ c = '—' then '-'
    else if c = ' ' then ' ' else c))

/-- `datetime.strptime(mon[:3], "%b").month`, case-insensitively. -/
def monthOfAbbrev (s : String) : Option Nat :=
  (([("jan", 1), ("feb", 2), ("mar", 3), ("apr", 4), ("may", 5), ("jun", 6),
     ("jul", 7), ("aug", 8), ("sep", 9), ("oct", 10), ("nov", 11), ("dec", 12)] :
     List (String × Nat)).find? (fun p => p.1 == s)).map (fun p => p.2)

/-- The `DATE_SINGLE` arm of `parse_date_range_text` (reached when the `ISO`
search fails and the `DATE_RANGE` arm does not return). -/
def dateSingleArm (t : List Char) : Except PyErr (Option (PyDateTime × PyDateTime)) :=
  match reSearch DATE_SINGLE t with
  | some [ds, mon, ys] =>
    match monthOfAbbrev (pyLower (pyTake 3 mon)) with
    | some mn =>
      match pyDatetime (natOfDigits ys.data) mn (natOfDigits ds.data) 9 0 0 0 (some LONDON_TZ) with
      | .ok start => .ok (some (start, addHours8 start))
      | .error e => .error e
    | none => .ok none
  | _ => .ok none

/-- `parse_date_range_text` (source lines 219-250): the bare `ISO` fragment
search comes first, then `DATE_RANGE`, then `DATE_SINGLE`; a
`datetime(...)` raise propagates. -/
def parse_date_range_text (txt : String) : Except PyErr (Option (PyDateTime × PyDateTime)) :=
  let t := (normalizeDashes txt).data
  match reSearch ISO t with
  | some [ys, ms, ds] =>
    match pyDatetime (natOfDigits ys.data) (natOfDigits ms.data) (natOfDigits ds.data)
        9 0 0 0 (some LONDON_TZ) with
    | .ok start => .ok (some (start, addHours8 start))
    | .error e => .error e
  | _ =>
    match reSearch DATE_RANGE t with
    | some [d1s, d2s, mon, ys] =>
      match monthOfAbbrev (pyLower (pyTake 3 mon)) with
      | some mn =>
        match pyDatetime (natOfDigits ys.data) mn (natOfDigits d1s.data) 9 0 0 0 (some LONDON_TZ) with
        | .ok s =>
          match pyDatetime (natOfDigits ys.data) mn (natOfDigits d2s.data) 17 0 0 0 (some LONDON_TZ) with
          | .ok e => .ok (some (s, e))
          | .error e => .error e
        | .error e => .error e
      | none => dateSingleArm t
    | _ => dateSingleArm t

def strTruthy (v : Option String) : Option String :=
  match v with
  | none => none
  | some s => if s = "" then none else some s

/-- `parse_possible_datetime` (source lines 253-277).  The try-block around
`fromisoformat` swallows its raise; the compact eight-digit constructors sit
outside any try, so their `ValueError` propagates. -/
def parse_possible_datetime (value : Option String) : Except PyErr (Option PyDateTime) :=
  match strTruthy value with
  | none => .ok none
  | some v =>
    let val := pyStrip v
    if val = "" then .ok none
    else
      let attempt : Option PyDateTime :=
        if pyEndsWithChar val 'Z' then pyFromIso (pyReplaceZ val)
        else
          match pyFromIso val with
          | some p => some (if p.tz.isNone then { p with tz := some LONDON_TZ } else p)
          | none => none
      match attempt with
      | some d => .ok (some d)
      | none =>
        match reMatch EIGHT_TIME val.data with
        | some [ys, ms, ds, hs, mins, ss, zs] =>
          match pyDatetime (natOfDigits ys.data) (natOfDigits ms.data) (natOfDigits ds.data)
              (natOfDigits hs.data) (natOfDigits mins.data) (natOfDigits ss.data) 0
              (some (if zs ≠ "" then Tz.utc else LONDON_TZ)) with
          | .ok d => .ok (some d)
          | .error e => .error e
        | _ =>
          match reMatch EIGHT_DIGIT val.data with
          | some [ys, ms, ds] =>
            match pyDatetime (natOfDigits ys.data) (natOfDigits ms.data) (natOfDigits ds.data)
                9 0 0 0 (some LONDON_TZ) with
            | .ok d => .ok (some d)
            | .error e => .error e
          | _ => .ok none

/-- `ZoneInfo(tz_hint)` lookup, modelled for the zone keys this pipeline can
meaningfully receive; any other key raises inside the try and resolves to
`none`. -/
def zoneOf (name : String) : Option Tz :=
  if name = "Europe/London" then some Tz.london
  else if name = "UTC" ∨ name = "Etc/UTC" then some Tz.utc
  else none

/-- The compact `%Y%m%dT%H%M%S` format of `strptime`.  With a fixed-length
all-digit layout the variable-width specifiers are forced to the 4-2-2/2-2-2
split, so exact-width parsing plus constructor validation is exact. -/
def parseCompactDT (cs : List Char) : Option (Nat × Nat × Nat × Nat × Nat × Nat) :=
  if cs.length = 15 ∧ allDigits (cs.take 8) ∧ cs.drop 8 ≠ [] ∧
     (cs.drop 8).take 1 = ['T'] ∧ allDigits (cs.drop 9) then
    some (natOfDigits (cs.take 4), natOfDigits ((cs.drop 4).take 2),
          natOfDigits ((cs.drop 6).take 2), natOfDigits ((cs.drop 9).take 2),
          natOfDigits ((cs.drop 11).take 2), natOfDigits (cs.drop 13))
  else none

/-- `parse_ics_datetime` (source lines 411-430): Z wins, then the resolvable
tz hint, then the London default; eight digits go through `strptime %Y%m%d`
(whose raise propagates) at 09:00, a compact date-time through a try that
falls back to `parse_possible_datetime` on the original value. -/
def parse_ics_datetime (value : Option String) (tz_hint : Option String) :
    Except PyErr (Option PyDateTime) :=
  match strTruthy value with
  | none => .ok none
  | some v0 =>
    let v := pyStrip v0
    let tz0 : Option Tz := if pyEndsWithChar v 'Z' then some Tz.utc else none
    let tz1 : Option Tz :=
      match strTruthy tz_hint, tz0 with
      | some hint, none => zoneOf hint
      | _, _ => tz0
    let tz := tz1.getD LONDON_TZ
    let clean := String.mk ((v.data.reverse.dropWhile (fun c => decide (c = 'Z'))).reverse)
    if clean.data.length = 8 ∧ allDigits clean.data then
      match pyDatetime (natOfDigits (clean.data.take 4))
          (natOfDigits ((clean.data.drop 4).take 2)) (natOfDigits (clean.data.drop 6))
          9 0 0 0 (some tz) with
      | .ok r => .ok (some r)
      | .error e => .error e
    else
      match parseCompactDT clean.data with
      | some (y, m, d, hh, mi, ss) =>
        match pyDatetime y m d hh mi ss 0 (some tz) with
        | .ok r => .ok (some r)
        | .error _ => parse_possible_datetime value
      | none => parse_possible_datetime value

/-! ## Sector classifier and event unifier -/

structure SectorDef where
  name : String
  search : String
  keywords : List String
deriving DecidableEq, Repr

/-- The built-in fallback taxonomy (source lines 51-87). -/
def DEFAULT_SECTORS : List SectorDef := [
  ⟨"Engineering & Manufacturing",
   "engineering OR manufacturing OR aerospace OR automotive",
   ["manufactur", "engineer", "aerospace", "aviation", "automotive", "packaging"]⟩,
  ⟨"Defence, Cyber & Security",
   "defence OR defense OR cyber OR security OR infosec",
   ["defence", "defense", "cyber", "security", "infosec", "risk"]⟩,
  ⟨"Energy",
   "energy OR smart buildings OR sustainability OR net zero",
   ["energy", "smart building", "sustainab", "net zero"]⟩,
  ⟨"Public Sector",
   "public sector OR government OR NHS OR education",
   ["public sector", "government", "nhs", "education"]⟩,
  ⟨"Fintech",
   "fintech OR banking OR payments OR blockchain OR crypto OR DeFi",
   ["fintech", "finance", "bank", "payment", "blockchain", "crypto", "defi"]⟩,
  ⟨"Life Sciences",
   "life sciences OR biotech OR pharma OR medical",
   ["life science", "biotech", "pharma", "medical", "dental", "vet"]⟩,
  ⟨"Project Management",
   "project management OR PMO OR programme OR portfolio",
   ["project management", "pmo", "programme", "portfolio"]⟩]

/-- The keyword-lowercasing pass applied to the loaded sector definitions
(source lines 124-125). -/
def lowerKeywords (defs : List SectorDef) : List SectorDef :=
  defs.map (fun s => { s with keywords := s.keywords.map pyLower })

def SECTOR_DEFS_default : List SectorDef := lowerKeywords DEFAULT_SECTORS

/-- Python substring containment `need in hay`. -/
def containsSub (hay need : List Char) : Bool := decide (need <:+: hay)

/-- `sector_for` (source lines 288-294), parameterized by the loaded sector
definitions. -/
def sector_for (defs : List SectorDef) (title : String) : Option String :=
  let t := pyLower title
  (defs.find? (fun sec => sec.keywords.any (fun k => containsSub t.data k.data))).map
    (fun sec => sec.name)

/-! ## The canonical event record and `unify` -/

structure Event where
  title : String
  start : String
  end_ : String
  url : String
  venue : String
  sector : List String
  exhibitors : List String
  free : Bool
deriving DecidableEq, Repr

/-- `unify` (source lines 297-309).  A `None` venue is modelled as the empty
string; both are falsy in `venue or "London"`. -/
def unify (defs : List SectorDef) (title start_iso end_iso venue url : String) : Event :=
  let clean_title := pyStrip title
  let sector := sector_for defs clean_title
  { title := clean_title, start := start_iso, end_ := end_iso, url := url,
    venue := if venue = "" then "London" else venue,
    sector := match sector with | some s => [s] | none => [],
    exhibitors := [], free := false }

/-! ## Extraction date kernels -/

/-- `x or y` on optional strings (empty is falsy; the right operand is
returned as-is). -/
def pyOrStr (a b : Option String) : Option String :=
  match strTruthy a with
  | some s => some s
  | none => b

/-- The start/end normalization of one JSON-LD event node
(source lines 362-372). -/
def jsonldDates (startDate startTime endDate endTime : Option String) :
    Except PyErr (Option (PyDateTime × PyDateTime)) := do
  let start_raw := pyOrStr startDate startTime
  let end_raw := pyOrStr (pyOrStr endDate endTime) start_raw
  if (strTruthy start_raw).isNone then return none
  let sd? ← parse_possible_datetime start_raw
  match sd? with
  | none => return none
  | some sd =>
    let ed? ← parse_possible_datetime end_raw
    let ed0 := ed?.getD (addHours8 sd)
    let lt ← dtLt ed0 sd
    return some (sd, if lt then addHours8 sd else ed0)

/-- The start/end normalization of one VEVENT block with `SUMMARY` and
`DTSTART` present (source lines 451-458). -/
def icsDates (dtstart dtstart_tzid dtend dtend_tzid : Option String) :
    Except PyErr (Option (PyDateTime × PyDateTime)) := do
  let s? ← parse_ics_datetime dtstart dtstart_tzid
  let e? ← parse_ics_datetime dtend dtend_tzid
  match s? with
  | none => return none
  | some s =>
    match e? with
    | none => return some (s, addHours8 s)
    | some e0 => do
      let lt ← dtLt e0 s
      return some (s, if lt then addHours8 s else e0)

/-! ## Manual seeds -/

structure ManualEntry where
  title : Option String
  start : Option String
  end_ : Option String
  venue : Option String
  url : Option String
deriving DecidableEq, Repr

/-- One iteration of the `load_manual_events` loop (source lines 534-552):
the date normalization and skip test for a dict-shaped entry.  YAML scalars
are modelled by their `str(value)` form. -/
def processManualEntry (defs : List SectorDef) (entry : ManualEntry) :
    Except PyErr (Option Event) := do
  let title := pyStrip (entry.title.getD "")
  let start? ← parse_possible_datetime entry.start
  let end? ← parse_possible_datetime entry.end_
  match start? with
  | none => return none
  | some start =>
    if title = "" then return none
    let e := end?.getD (addHours8 start)
    return some (unify defs title (isoformat start) (isoformat e)
      (entry.venue.getD "London") (entry.url.getD ""))

/-- `load_manual_events` over an already-decoded seed list. -/
def load_manual_events (defs : List SectorDef) (entries : List ManualEntry) :
    Except PyErr (List Event) :=
  entries.foldlM (fun acc e => do
    match ← processManualEntry defs e with
    | some ev => pure (acc ++ [ev])
    | none => pure acc) []

/-- The free-text fallback of `extract_events_from_page`
(source lines 513-518), reached when the JSON-LD and ICS steps yield
nothing; `titleText` is the page title element's text (or the url). -/
def freeTextFallback (defs : List SectorDef) (url titleText html : String) :
    Except PyErr (List Event) := do
  let name := pyStrip titleText
  let dr0 ← parse_date_range_text html
  let dr? ← match dr0 with
    | some p => pure (some p)
    | none => parse_date_range_text name
  match dr? with
  | none => return []
  | some (s, e) => return [unify defs name (isoformat s) (isoformat e) "London" url]

/-! ## The reconciliation engine (source `main`, lines 618-663)

The Python state is the `existing` list plus the `bykey` dict whose values
alias list elements; the dict is modelled as an association list from
identity key to the index of the aliased element (object identity never
moves inside a Python list, so an index is a faithful stand-in for the
reference). -/

abbrev EvKey := String × String

/-- `(e["title"].lower().strip(), e["venue"])`. -/
def evKey (e : Event) : EvKey := (pyStrip (pyLower e.title), e.venue)

/-- Dict lookup. -/
def dget : List (EvKey × Nat) → EvKey → Option Nat
  | [], _ => none
  | (k', v) :: rest, k => if k' = k then some v else dget rest k

/-- Dict update-or-insert. -/
def dset : List (EvKey × Nat) → EvKey → Nat → List (EvKey × Nat)
  | [], k, v => [(k, v)]
  | (k', v') :: rest, k, v =>
    if k' = k then (k, v) :: rest else (k', v') :: dset rest k v

/-- The dict comprehension of source line 619, unrolled left to right with
the running element index: each record is inserted in turn, so a later
record with the same key overwrites an earlier one. -/
def bykey0From (m : List (EvKey × Nat)) (n : Nat) : List Event → List (EvKey × Nat)
  | [] => m
  | e :: rest => bykey0From (dset m (evKey e) n) (n + 1) rest

/-- `bykey = ... for e in existing` (source line 619). -/
def bykey0 (l : List Event) : List (EvKey × Nat) := bykey0From [] 0 l

structure MergeState where
  existing : List Event
  bykey : List (EvKey × Nat)
  added : List Event
  changed : List Event
deriving Repr

/-- One iteration of the manual-seed loop (source lines 622-626). -/
def seedStep (st : MergeState) (s : Event) : MergeState :=
  if (dget st.bykey (evKey s)).isSome then st
  else { st with existing := st.existing ++ [s],
                 bykey := dset st.bykey (evKey s) st.existing.length }

def defaultEvent : Event := ⟨"", "", "", "", "", [], [], false⟩

/-- One iteration of the candidate loop (source lines 630-647).
`existing.index(ex)` is the first value-equal element (unfindable is a
Python `ValueError`, unreachable here and modelled by the out-of-range
no-op of `List.set`). -/
def candStep (st : MergeState) (ne : Event) : MergeState :=
  let k := evKey ne
  match dget st.bykey k with
  | some idx =>
    let ex := st.existing.getD idx defaultEvent
    if pyTake 10 ex.start ≠ pyTake 10 ne.start ∨ pyTake 10 ex.end_ ≠ pyTake 10 ne.end_ then
      let ne' : Event := { ne with
        sector := if ex.sector = [] then ne.sector else ex.sector,
        exhibitors := ex.exhibitors,
        free := ex.free }
      let j := st.existing.findIdx (fun e => decide (e = ex))
      { st with existing := st.existing.set j ne',
                bykey := dset st.bykey k j,
                changed := st.changed ++ [ne'] }
    else
      if ex.url = "" then
        { st with existing := st.existing.set idx { ex with url := ne.url } }
      else st
  | none =>
    { st with existing := st.existing ++ [ne],
              bykey := dset st.bykey k st.existing.length,
              added := st.added ++ [ne] }

/-- The merge phase: build the index, insert manual seeds, process the
candidate batch. -/
def runMerge (existing0 seeds candidates : List Event) : MergeState :=
  let st0 : MergeState := ⟨existing0, bykey0 existing0, [], []⟩
  let st1 := seeds.foldl seedStep st0
  candidates.foldl candStep st1

/-- The retention test of the pruning loop (source lines 651-657): parse
failures and the naive-versus-aware `TypeError` are swallowed by the bare
except and the record is kept.  `horizon` is the instant of
`now + timedelta(days=190)` in microseconds. -/
def keepEvent (horizon : Int) (e : Event) : Bool :=
  match pyFromIso (pyReplaceZ e.start) with
  | some dt =>
    match dt.tz with
    | some _ => decide (dtKey dt ≤ horizon)
    | none => true
  | none => true

/-- Horizon pruning (source lines 649-657). -/
def prune (horizon : Int) (events : List Event) : List Event :=
  events.filter (keepEvent horizon)

structure MergeResult where
  store : List Event
  added : List Event
  changed : List Event
deriving Repr

/-- The whole reconciliation pass of `main` on an in-memory store: merge,
then prune; `save_events` writes `store`, `write_changelog` receives
`added`/`changed`. -/
def reconcile (horizon : Int) (existing0 seeds candidates : List Event) : MergeResult :=
  let st := runMerge existing0 seeds candidates
  ⟨prune horizon st.existing, st.added, st.changed⟩

def WINDOW_DAYS : Nat := 84

/-- `within_window` (source lines 558-560) on instants (its arguments are
aware datetimes); `now` in microseconds. -/
def within_window (now dt : Int) : Bool :=
  decide (now ≤ dt) && decide (dt ≤ now + (WINDOW_DAYS : Int) * 86400000000)

/-! ## Helper lemmas: dict model, key indices, list surgery -/

def keysOf (l : List Event) : List EvKey := l.map evKey

/-- First index of a key in a key list. -/
def kIdx : List EvKey → EvKey → Option Nat
  | [], _ => none
  | k' :: rest, k => if k' = k then some 0 else (kIdx rest k).map (· + 1)

/-- First index of a record with the given identity key. -/
def idxOfKey (l : List Event) (k : EvKey) : Option Nat := kIdx (keysOf l) k

/-- First record with the given identity key. -/
def lookupKey : List Event → EvKey → Option Event
  | [], _ => none
  | e :: rest, k => if evKey e = k then some e else lookupKey rest k

/-! ## The merge invariant: `bykey` is the first-index-by-key map of
`existing`, whose keys are pairwise distinct -/

def MInv (st : MergeState) : Prop :=
  (keysOf st.existing).Nodup ∧ ∀ k, dget st.bykey k = idxOfKey st.existing k

/-- The curated-field carry of the date-change branch (source lines
635-637), as stored in place of the matched record. -/
def carryFields (ex ne : Event) : Event :=
  { ne with sector := if ex.sector = [] then ne.sector else ex.sector,
            exhibitors := ex.exhibitors, free := ex.free }

/-- The record stored at a candidate's key after its loop iteration, as a
function of the pre-iteration store. -/
def candResult (l : List Event) (ne : Event) : Event :=
  match lookupKey l (evKey ne) with
  | none => ne
  | some ex =>
    if pyTake 10 ex.start ≠ pyTake 10 ne.start ∨ pyTake 10 ex.end_ ≠ pyTake 10 ne.end_ then
      carryFields ex ne
    else if ex.url = "" then { ex with url := ne.url } else ex

def dayEq (r c : Event) : Prop :=
  pyTake 10 r.start = pyTake 10 c.start ∧ pyTake 10 r.end_ = pyTake 10 c.end_

/-- The state of affairs a first reconciliation run leaves behind for a
candidate: its key is present, at a record with the same day-granular dates,
and a surviving record only has an empty url if the candidate brings none. -/
def GoodFor (h : Int) (l : List Event) (c : Event) : Prop :=
  ∃ r, r ∈ l ∧ evKey r = evKey c ∧ dayEq r c ∧
    (keepEvent h r = true → r.url = "" → c.url = "")

/-- `horizon = datetime.now(timezone.utc) + timedelta(days=190)` on
instants (source line 649), in microseconds. -/
def horizonOf (now : Int) : Int := now + 190 * 86400000000

/-! ## Concrete sample records used in the evaluation theorems -/

def exTech : Event :=
  ⟨"Tech Expo", "2025-03-12T09:00:00+00:00", "2025-03-12T17:00:00+00:00", "", "Olympia",
   [], [], false⟩

def neTechApr : Event :=
  ⟨"Tech Expo", "2025-04-05T09:00:00+01:00", "2025-04-05T17:00:00+01:00", "http://a",
   "Olympia", [], [], false⟩

def neTechAprF : Event :=
  ⟨"Tech Expo", "2025-04-05T09:00:00+01:00", "2025-04-05T17:00:00+01:00", "http://a",
   "Olympia", ["Fintech"], [], false⟩

def neOther : Event :=
  ⟨"Other Expo", "2025-03-12T09:00:00+00:00", "2025-03-12T17:00:00+00:00", "http://b",
   "ExCeL", [], [], false⟩

def evFar : Event :=
  ⟨"Far Expo", "2130-01-01T00:00:00+00:00", "2130-01-01T08:00:00+00:00", "http://f",
   "ExCeL", [], [], false⟩

def evUnparsable : Event := ⟨"A", "x", "y", "u", "v", [], [], false⟩

def evPast : Event :=
  ⟨"Old Expo", "1900-01-01T00:00:00+00:00", "1900-01-01T08:00:00+00:00", "", "London",
   [], [], false⟩

theorem dget_dset (m : List (EvKey × Nat)) (k k' : EvKey) (v : Nat) :
    dget (dset m k v) k' = if k = k' then some v else dget m k' := by
  induction m with
  | nil => simp [dset, dget]
  | cons p rest ih =>
    obtain ⟨pk, pv⟩ := p
    by_cases h : pk = k
    · subst h
      by_cases h2 : pk = k' <;> simp [dset, dget, h2]
    · by_cases h2 : pk = k'
      · subst h2
        simp [dset, dget, h, Ne.symm h]
      · simp [dset, dget, h, h2, ih]

theorem kIdx_eq_none (l : List EvKey) (k : EvKey) : kIdx l k = none ↔ k ∉ l := by
  induction l with
  | nil => simp [kIdx]
  | cons k' rest ih =>
    by_cases h : k' = k
    · simp [kIdx, h]
    · simp [kIdx, h, ih, Ne.symm h]

theorem idxOfKey_eq_none (l : List Event) (k : EvKey) :
    idxOfKey l k = none ↔ k ∉ keysOf l := kIdx_eq_none _ _

theorem lookupKey_eq_none (l : List Event) (k : EvKey) :
    lookupKey l k = none ↔ k ∉ keysOf l := by
  induction l with
  | nil => simp [lookupKey, keysOf]
  | cons e rest ih =>
    by_cases h : evKey e = k
    · simp [lookupKey, h, keysOf]
    · simp [lookupKey, h, keysOf, ih, Ne.symm h]

theorem lookupKey_idxOfKey (l : List Event) (k : EvKey) :
    lookupKey l k = (idxOfKey l k).bind (fun i => l[i]?) := by
  induction l with
  | nil => simp [lookupKey, idxOfKey, keysOf, kIdx]
  | cons e rest ih =>
    by_cases h : evKey e = k
    · simp [lookupKey, idxOfKey, keysOf, kIdx, h]
    · have hstep : idxOfKey (e :: rest) k = (idxOfKey rest k).map (· + 1) := by
        simp [idxOfKey, keysOf, kIdx, h]
      rw [hstep]
      simp only [lookupKey, if_neg h]
      rw [ih]
      cases hrest : idxOfKey rest k <;> simp [hrest]

theorem idxOfKey_get (l : List Event) (k : EvKey) (i : Nat) (h : idxOfKey l k = some i) :
    ∃ e, l[i]? = some e ∧ evKey e = k := by
  induction l generalizing i with
  | nil => simp [idxOfKey, keysOf, kIdx] at h
  | cons e rest ih =>
    by_cases he : evKey e = k
    · simp [idxOfKey, keysOf, kIdx, he] at h
      subst h
      exact ⟨e, by simp, he⟩
    · simp [idxOfKey, keysOf, kIdx, he] at h
      obtain ⟨j, hj, hji⟩ := h
      subst hji
      obtain ⟨x, hx, hk⟩ := ih j hj
      exact ⟨x, by simpa using hx, hk⟩

theorem lookupKey_mem (l : List Event) (k : EvKey) (e : Event)
    (h : lookupKey l k = some e) : e ∈ l ∧ evKey e = k := by
  induction l with
  | nil => simp [lookupKey] at h
  | cons x rest ih =>
    by_cases hx : evKey x = k
    · simp [lookupKey, hx] at h
      subst h
      exact ⟨List.mem_cons_self _ _, hx⟩
    · simp [lookupKey, hx] at h
      obtain ⟨hm, hk⟩ := ih h
      exact ⟨List.mem_cons_of_mem _ hm, hk⟩

theorem lookupKey_of_mem (l : List Event) (e : Event) (hnd : (keysOf l).Nodup)
    (he : e ∈ l) : lookupKey l (evKey e) = some e := by
  induction l with
  | nil => simp at he
  | cons x rest ih =>
    rcases List.mem_cons.mp he with rfl | hm
    · simp [lookupKey]
    · have hnd' : (keysOf rest).Nodup := by
        simpa [keysOf] using (List.nodup_cons.mp (by simpa [keysOf] using hnd)).2
      by_cases hx : evKey x = evKey e
      · exfalso
        have : evKey x ∉ keysOf rest := (List.nodup_cons.mp (by simpa [keysOf] using hnd)).1
        exact this (hx ▸ (List.mem_map_of_mem evKey hm))
      · simp [lookupKey, hx, ih hnd' hm]

theorem keysOf_append (l : List Event) (e : Event) :
    keysOf (l ++ [e]) = keysOf l ++ [evKey e] := by simp [keysOf]

theorem keysOf_set (l : List Event) (i : Nat) (v : Event) :
    keysOf (l.set i v) = (keysOf l).set i (evKey v) := by
  simp [keysOf, List.map_set]

theorem kIdx_append (ks : List EvKey) (k0 k : EvKey) :
    kIdx (ks ++ [k0]) k =
      match kIdx ks k with
      | some i => some i
      | none => if k0 = k then some ks.length else none := by
  induction ks with
  | nil => simp [kIdx]
  | cons x rest ih =>
    by_cases hx : x = k
    · simp [kIdx, hx]
    · simp only [List.cons_append, kIdx, if_neg hx, List.append_eq]
      rw [ih]
      cases h : kIdx rest k with
      | none => by_cases hk : k0 = k <;> simp [hk]
      | some i => simp

theorem idxOfKey_append (l : List Event) (e : Event) (k : EvKey) :
    idxOfKey (l ++ [e]) k =
      match idxOfKey l k with
      | some i => some i
      | none => if evKey e = k then some l.length else none := by
  unfold idxOfKey
  rw [show keysOf (l ++ [e]) = keysOf l ++ [evKey e] from keysOf_append l e]
  rw [kIdx_append]
  simp [keysOf]

theorem lookupKey_append (l : List Event) (e : Event) (k : EvKey) :
    lookupKey (l ++ [e]) k =
      match lookupKey l k with
      | some r => some r
      | none => if evKey e = k then some e else none := by
  induction l with
  | nil => simp [lookupKey]
  | cons x rest ih =>
    by_cases hx : evKey x = k
    · simp [lookupKey, hx]
    · simp only [List.cons_append, lookupKey, hx, if_neg hx]
      exact ih


theorem mem_of_getElem?' {α : Type} (l : List α) (n : Nat) (a : α)
    (h : l[n]? = some a) : a ∈ l := by
  induction l generalizing n with
  | nil => simp at h
  | cons x rest ih =>
    cases n with
    | zero =>
      have : x = a := by simpa using h
      exact this ▸ List.mem_cons_self _ _
    | succ m =>
      exact List.mem_cons_of_mem _ (ih m (by simpa using h))

theorem set_self_of_getElem? {α : Type} (l : List α) (n : Nat) (a : α)
    (h : l[n]? = some a) : l.set n a = l := by
  induction l generalizing n with
  | nil => simp at h
  | cons x rest ih =>
    cases n with
    | zero =>
      have : x = a := by simpa using h
      subst this
      rfl
    | succ m =>
      have := ih m (by simpa using h)
      simp [List.set, this]

theorem mem_set_self {α : Type} (l : List α) (n : Nat) (a : α) (h : n < l.length) :
    a ∈ l.set n a := by
  induction l generalizing n with
  | nil => simp at h
  | cons x rest ih =>
    cases n with
    | zero => exact List.mem_cons_self _ _
    | succ m => exact List.mem_cons_of_mem _ (ih m (by simpa using h))

theorem mem_set_of_ne {α : Type} (l : List α) (n : Nat) (a x b : α)
    (hx : x ∈ l) (hb : l[n]? = some b) (hxb : x ≠ b) : x ∈ l.set n a := by
  induction l generalizing n with
  | nil => simp at hx
  | cons y rest ih =>
    cases n with
    | zero =>
      have hyb : y = b := by simpa using hb
      rcases List.mem_cons.mp hx with rfl | hm
      · exact absurd hyb hxb
      · exact List.mem_cons_of_mem _ hm
    | succ m =>
      rcases List.mem_cons.mp hx with rfl | hm
      · exact List.mem_cons_self _ _
      · exact List.mem_cons_of_mem _ (ih m hm (by simpa using hb))

theorem filter_set_invisible (p : Event → Bool) (l : List Event) (n : Nat) (a b : Event)
    (hb : l[n]? = some b) (hpb : p b = false) (hpa : p a = false) :
    (l.set n a).filter p = l.filter p := by
  induction l generalizing n with
  | nil => simp at hb
  | cons x rest ih =>
    cases n with
    | zero =>
      have : x = b := by simpa using hb
      subst this
      simp [List.filter_cons, hpa, hpb]
    | succ m =>
      have := ih m (by simpa using hb)
      cases hx : p x <;> simp [List.set, List.filter_cons, hx, this]

theorem nodup_key_idx_unique (l : List Event) (hnd : (keysOf l).Nodup) (i j : Nat)
    (a b : Event) (ha : l[i]? = some a) (hb : l[j]? = some b)
    (hk : evKey a = evKey b) : i = j := by
  induction l generalizing i j with
  | nil => simp at ha
  | cons x rest ih =>
    have hx : evKey x ∉ keysOf rest :=
      (List.nodup_cons.mp (by simpa [keysOf] using hnd)).1
    have hnd' : (keysOf rest).Nodup :=
      (List.nodup_cons.mp (by simpa [keysOf] using hnd)).2
    cases i with
    | zero =>
      have hax : x = a := by simpa using ha
      cases j with
      | zero => rfl
      | succ m =>
        exfalso
        have hbm : b ∈ rest := mem_of_getElem?' rest m b (by simpa using hb)
        exact hx (hax ▸ (hk ▸ List.mem_map_of_mem evKey hbm))
    | succ m =>
      cases j with
      | zero =>
        exfalso
        have hbx : x = b := by simpa using hb
        have ham : a ∈ rest := mem_of_getElem?' rest m a (by simpa using ha)
        exact hx (hbx ▸ (hk ▸ List.mem_map_of_mem evKey ham))
      | succ m2 =>
        have := ih hnd' m m2 (by simpa using ha) (by simpa using hb)
        omega

theorem findIdx_eq_of_nodup (l : List Event) (hnd : (keysOf l).Nodup) (i : Nat) (ex : Event)
    (h : l[i]? = some ex) : l.findIdx (fun e => decide (e = ex)) = i := by
  induction l generalizing i with
  | nil => simp at h
  | cons x rest ih =>
    have hx : evKey x ∉ keysOf rest :=
      (List.nodup_cons.mp (by simpa [keysOf] using hnd)).1
    have hnd' : (keysOf rest).Nodup :=
      (List.nodup_cons.mp (by simpa [keysOf] using hnd)).2
    cases i with
    | zero =>
      have : x = ex := by simpa using h
      subst this
      simp [List.findIdx_cons]
    | succ m =>
      have hm : rest[m]? = some ex := by simpa using h
      have hne : x ≠ ex := by
        intro hcon
        have : ex ∈ rest := mem_of_getElem?' rest m ex hm
        exact hx (hcon ▸ List.mem_map_of_mem evKey this)
      simp [List.findIdx_cons, hne, ih hnd' m hm]

theorem lookupKey_set (l : List Event) (i : Nat) (v b : Event)
    (hnd : (keysOf l).Nodup) (hi : l[i]? = some b) (hkey : evKey v = evKey b) :
    ∀ k, lookupKey (l.set i v) k = if evKey b = k then some v else lookupKey l k := by
  induction l generalizing i with
  | nil => simp at hi
  | cons x rest ih =>
    have hx : evKey x ∉ keysOf rest :=
      (List.nodup_cons.mp (by simpa [keysOf] using hnd)).1
    have hnd' : (keysOf rest).Nodup :=
      (List.nodup_cons.mp (by simpa [keysOf] using hnd)).2
    intro k
    cases i with
    | zero =>
      have : x = b := by simpa using hi
      subst this
      by_cases hk : evKey x = k
      · simp [List.set, lookupKey, hkey, hk]
      · simp [List.set, lookupKey, hkey, hk, if_neg hk]
    | succ m =>
      have hm : rest[m]? = some b := by simpa using hi
      have hbx : evKey x ≠ evKey b := by
        intro hcon
        have : b ∈ rest := mem_of_getElem?' rest m b hm
        exact hx (hcon ▸ List.mem_map_of_mem evKey this)
      by_cases hk : evKey x = k
      · have : ¬(evKey b = k) := fun hcon => hbx (hk ▸ hcon.symm ▸ rfl)
        simp [List.set, lookupKey, hk, this]
      · simp [List.set, lookupKey, hk, ih m hnd' hm]

theorem bykey0From_spec (l : List Event) (m : List (EvKey × Nat)) (n : Nat)
    (hnd : (keysOf l).Nodup) :
    ∀ k, dget (bykey0From m n l) k =
      match idxOfKey l k with
      | some i => some (n + i)
      | none => dget m k := by
  induction l generalizing m n with
  | nil => intro k; simp [bykey0From, idxOfKey, keysOf, kIdx]
  | cons e rest ih =>
    intro k
    have hx : evKey e ∉ keysOf rest :=
      (List.nodup_cons.mp (by simpa [keysOf] using hnd)).1
    have hnd' : (keysOf rest).Nodup :=
      (List.nodup_cons.mp (by simpa [keysOf] using hnd)).2
    rw [bykey0From]
    rw [ih (dset m (evKey e) n) (n + 1) hnd' k]
    by_cases he : evKey e = k
    · subst he
      have hrest : idxOfKey rest (evKey e) = none := (idxOfKey_eq_none _ _).mpr hx
      have hcons : idxOfKey (e :: rest) (evKey e) = some 0 := by
        simp [idxOfKey, keysOf, kIdx]
      rw [hrest, hcons]
      simp [dget_dset]
    · have hcons : idxOfKey (e :: rest) k = (idxOfKey rest k).map (· + 1) := by
        simp [idxOfKey, keysOf, kIdx, he]
      rw [hcons]
      cases hrest : idxOfKey rest k with
      | none => simp [dget_dset, he]
      | some i =>
        simp only [Option.map_some]
        have : n + 1 + i = n + (i + 1) := by omega
        simp [this]

theorem MInv_init (E : List Event) (hE : (keysOf E).Nodup) :
    MInv ⟨E, bykey0 E, [], []⟩ := by
  refine ⟨hE, fun k => ?_⟩
  rw [show (MergeState.mk E (bykey0 E) [] []).bykey = bykey0 E from rfl]
  rw [bykey0, bykey0From_spec E [] 0 hE k]
  cases h : idxOfKey E k <;> simp [dget]

theorem seedStep_spec (st : MergeState) (s : Event) (hInv : MInv st) :
    MInv (seedStep st s) ∧
    (seedStep st s).added = st.added ∧
    (seedStep st s).changed = st.changed ∧
    (∀ k, lookupKey (seedStep st s).existing k =
      match lookupKey st.existing k with
      | some r => some r
      | none => if evKey s = k then some s else none) ∧
    (∃ ins, (seedStep st s).existing = st.existing ++ ins ∧
      ∀ x ∈ ins, x = s ∧ lookupKey st.existing (evKey x) = none) := by
  by_cases hd : (dget st.bykey (evKey s)).isSome = true
  · have hstep : seedStep st s = st := by
      unfold seedStep
      rw [if_pos hd]
    rw [hstep]
    obtain ⟨idx, hidx⟩ := Option.isSome_iff_exists.mp (by rw [hInv.2] at hd; exact hd)
    obtain ⟨e, he, hk⟩ := idxOfKey_get _ _ _ hidx
    have hlook : lookupKey st.existing (evKey s) = some e := by
      rw [lookupKey_idxOfKey, hidx]; simpa using he
    refine ⟨hInv, rfl, rfl, fun k => ?_, ⟨[], by simp, by simp⟩⟩
    cases hl : lookupKey st.existing k with
    | some r => rfl
    | none =>
      by_cases hks : evKey s = k
      · rw [← hks] at hl; rw [hlook] at hl; exact absurd hl (by simp)
      · simp [hks]
  · have hstep : seedStep st s =
        ⟨st.existing ++ [s], dset st.bykey (evKey s) st.existing.length,
         st.added, st.changed⟩ := by
      unfold seedStep
      rw [if_neg hd]
    rw [hstep]
    have hidx : idxOfKey st.existing (evKey s) = none := by
      rw [← hInv.2]
      exact Option.not_isSome_iff_eq_none.mp (by simpa using hd)
    have hnotin : evKey s ∉ keysOf st.existing := (idxOfKey_eq_none _ _).mp hidx
    have hlook : lookupKey st.existing (evKey s) = none := (lookupKey_eq_none _ _).mpr hnotin
    refine ⟨⟨?_, ?_⟩, rfl, rfl, fun k => ?_, ⟨[s], rfl, ?_⟩⟩
    · rw [show (MergeState.mk (st.existing ++ [s]) (dset st.bykey (evKey s) st.existing.length)
        st.added st.changed).existing = st.existing ++ [s] from rfl, keysOf_append]
      refine List.nodup_append.mpr ⟨hInv.1, List.nodup_singleton _, ?_⟩
      intro a ha hb
      simp at hb
      exact hnotin (hb ▸ ha)
    · intro k
      rw [show (MergeState.mk (st.existing ++ [s]) (dset st.bykey (evKey s) st.existing.length)
        st.added st.changed).bykey = dset st.bykey (evKey s) st.existing.length from rfl]
      rw [show (MergeState.mk (st.existing ++ [s]) (dset st.bykey (evKey s) st.existing.length)
        st.added st.changed).existing = st.existing ++ [s] from rfl]
      rw [dget_dset, idxOfKey_append, hInv.2]
      by_cases hks : evKey s = k
      · subst hks; rw [hidx]
      · rw [if_neg hks]
        cases h : idxOfKey st.existing k with
        | some i => rfl
        | none => simp [hks]
    · rw [show (MergeState.mk (st.existing ++ [s]) (dset st.bykey (evKey s) st.existing.length)
        st.added st.changed).existing = st.existing ++ [s] from rfl, lookupKey_append]
    · intro x hx
      simp at hx
      subst hx
      exact ⟨rfl, hlook⟩

theorem seedsFold_spec (S : List Event) (st : MergeState) (hInv : MInv st) :
    MInv (S.foldl seedStep st) ∧
    (S.foldl seedStep st).added = st.added ∧
    (S.foldl seedStep st).changed = st.changed ∧
    (∀ k, lookupKey (S.foldl seedStep st).existing k =
      match lookupKey st.existing k with
      | some r => some r
      | none => S.find? (fun s => decide (evKey s = k))) ∧
    (∃ ins, (S.foldl seedStep st).existing = st.existing ++ ins ∧
      ∀ x ∈ ins, x ∈ S ∧ lookupKey st.existing (evKey x) = none ∧
        S.find? (fun s => decide (evKey s = evKey x)) = some x) := by
  induction S generalizing st with
  | nil =>
    refine ⟨hInv, rfl, rfl, fun k => ?_, ⟨[], by simp, by simp⟩⟩
    cases hl : lookupKey st.existing k <;> simp [List.find?, hl]
  | cons s rest ih =>
    obtain ⟨hInv1, hadd1, hchg1, hlk1, ins1, hins1, hins1p⟩ := seedStep_spec st s hInv
    obtain ⟨hInvF, haddF, hchgF, hlkF, ins2, hins2, hins2p⟩ := ih (seedStep st s) hInv1
    rw [show (s :: rest).foldl seedStep st = rest.foldl seedStep (seedStep st s) from rfl]
    refine ⟨hInvF, by rw [haddF, hadd1], by rw [hchgF, hchg1], fun k => ?_, ?_⟩
    · rw [hlkF k, hlk1 k]
      cases hl : lookupKey st.existing k with
      | some r => rfl
      | none =>
        by_cases hks : evKey s = k
        · subst hks
          simp [List.find?]
        · rw [if_neg hks]
          simp only [List.find?]
          rw [show (decide (evKey s = k)) = false by simp [hks]]
    · refine ⟨ins1 ++ ins2, by rw [hins2, hins1, List.append_assoc], ?_⟩
      intro x hx
      rcases List.mem_append.mp hx with hx1 | hx2
      · obtain ⟨hxs, hxl⟩ := hins1p x hx1
        subst hxs
        refine ⟨List.mem_cons_self _ _, hxl, ?_⟩
        simp [List.find?]
      · obtain ⟨hxr, hxl, hxf⟩ := hins2p x hx2
        have hlnone : lookupKey st.existing (evKey x) = none := by
          have := hlk1 (evKey x)
          rw [hxl] at this
          cases hl : lookupKey st.existing (evKey x) with
          | none => rfl
          | some r => rw [hl] at this; exact absurd this.symm (by simp)
        have hks : evKey s ≠ evKey x := by
          intro hcon
          have := hlk1 (evKey x)
          rw [hxl, hlnone, if_pos hcon] at this
          exact absurd this (by simp)
        refine ⟨List.mem_cons_of_mem _ hxr, hlnone, ?_⟩
        simp only [List.find?]
        rw [show (decide (evKey s = evKey x)) = false by simp [hks]]
        exact hxf

theorem candStep_eq_none (st : MergeState) (ne : Event)
    (h : dget st.bykey (evKey ne) = none) :
    candStep st ne = ⟨st.existing ++ [ne], dset st.bykey (evKey ne) st.existing.length,
      st.added ++ [ne], st.changed⟩ := by
  unfold candStep
  simp only [h]

theorem candStep_eq_changed (st : MergeState) (ne : Event) (idx : Nat)
    (h : dget st.bykey (evKey ne) = some idx)
    (hc : pyTake 10 (st.existing.getD idx defaultEvent).start ≠ pyTake 10 ne.start ∨
          pyTake 10 (st.existing.getD idx defaultEvent).end_ ≠ pyTake 10 ne.end_) :
    candStep st ne =
      ⟨st.existing.set
          (st.existing.findIdx (fun e => decide (e = st.existing.getD idx defaultEvent)))
          (carryFields (st.existing.getD idx defaultEvent) ne),
        dset st.bykey (evKey ne)
          (st.existing.findIdx (fun e => decide (e = st.existing.getD idx defaultEvent))),
        st.added,
        st.changed ++ [carryFields (st.existing.getD idx defaultEvent) ne]⟩ := by
  unfold candStep
  simp only [h]
  rw [if_pos hc]
  rfl

theorem candStep_eq_url (st : MergeState) (ne : Event) (idx : Nat)
    (h : dget st.bykey (evKey ne) = some idx)
    (hc : ¬(pyTake 10 (st.existing.getD idx defaultEvent).start ≠ pyTake 10 ne.start ∨
            pyTake 10 (st.existing.getD idx defaultEvent).end_ ≠ pyTake 10 ne.end_))
    (hu : (st.existing.getD idx defaultEvent).url = "") :
    candStep st ne =
      ⟨st.existing.set idx { st.existing.getD idx defaultEvent with url := ne.url },
        st.bykey, st.added, st.changed⟩ := by
  unfold candStep
  simp only [h]
  rw [if_neg hc, if_pos hu]

theorem candStep_eq_skip (st : MergeState) (ne : Event) (idx : Nat)
    (h : dget st.bykey (evKey ne) = some idx)
    (hc : ¬(pyTake 10 (st.existing.getD idx defaultEvent).start ≠ pyTake 10 ne.start ∨
            pyTake 10 (st.existing.getD idx defaultEvent).end_ ≠ pyTake 10 ne.end_))
    (hu : ¬(st.existing.getD idx defaultEvent).url = "") :
    candStep st ne = st := by
  unfold candStep
  simp only [h]
  rw [if_neg hc, if_neg hu]

theorem candStep_main (st : MergeState) (ne : Event) (hInv : MInv st) :
    MInv (candStep st ne) ∧
    (∀ k, k ≠ evKey ne → lookupKey (candStep st ne).existing k = lookupKey st.existing k) ∧
    lookupKey (candStep st ne).existing (evKey ne) = some (candResult st.existing ne) := by
  cases hd : dget st.bykey (evKey ne) with
  | none =>
    have hidx : idxOfKey st.existing (evKey ne) = none := by rw [← hInv.2]; exact hd
    have hnotin : evKey ne ∉ keysOf st.existing := (idxOfKey_eq_none _ _).mp hidx
    have hlook : lookupKey st.existing (evKey ne) = none := (lookupKey_eq_none _ _).mpr hnotin
    rw [candStep_eq_none st ne hd]
    refine ⟨⟨?_, ?_⟩, ?_, ?_⟩
    · show (keysOf (st.existing ++ [ne])).Nodup
      rw [keysOf_append]
      refine List.nodup_append.mpr ⟨hInv.1, List.nodup_singleton _, ?_⟩
      intro a ha hb
      simp at hb
      exact hnotin (hb ▸ ha)
    · intro k
      show dget (dset st.bykey (evKey ne) st.existing.length) k =
        idxOfKey (st.existing ++ [ne]) k
      rw [dget_dset, idxOfKey_append, hInv.2]
      by_cases hks : evKey ne = k
      · subst hks; rw [hidx]
      · rw [if_neg hks]
        cases h : idxOfKey st.existing k with
        | some i => rfl
        | none => simp [hks]
    · intro k hk
      show lookupKey (st.existing ++ [ne]) k = lookupKey st.existing k
      rw [lookupKey_append]
      cases hl : lookupKey st.existing k with
      | some r => rfl
      | none => rw [if_neg (fun hcon => hk hcon.symm)]
    · show lookupKey (st.existing ++ [ne]) (evKey ne) = some (candResult st.existing ne)
      rw [lookupKey_append, hlook]
      simp [candResult, hlook]
  | some idx =>
    have hidx : idxOfKey st.existing (evKey ne) = some idx := by rw [← hInv.2]; exact hd
    obtain ⟨ex, hex, hkex⟩ := idxOfKey_get _ _ _ hidx
    have hexD : st.existing.getD idx defaultEvent = ex := by
      rw [List.getD_eq_getElem?_getD, hex]
      rfl
    have hlook : lookupKey st.existing (evKey ne) = some ex := by
      rw [lookupKey_idxOfKey, hidx]; simpa using hex
    have hkeys_idx : (keysOf st.existing)[idx]? = some (evKey ne) := by
      rw [show keysOf st.existing = st.existing.map evKey from rfl, List.getElem?_map, hex]
      simpa using hkex
    by_cases hc : pyTake 10 (st.existing.getD idx defaultEvent).start ≠ pyTake 10 ne.start ∨
        pyTake 10 (st.existing.getD idx defaultEvent).end_ ≠ pyTake 10 ne.end_
    · have hj : st.existing.findIdx (fun e => decide (e = st.existing.getD idx defaultEvent)) = idx := by
        rw [hexD]; exact findIdx_eq_of_nodup _ hInv.1 idx ex hex
      rw [candStep_eq_changed st ne idx hd hc, hj, hexD]
      rw [hexD] at hc
      have hkeyc : evKey (carryFields ex ne) = evKey ne := rfl
      have hkeysSet : keysOf (st.existing.set idx (carryFields ex ne)) = keysOf st.existing := by
        rw [keysOf_set, hkeyc, set_self_of_getElem? _ _ _ hkeys_idx]
      have hlset := lookupKey_set st.existing idx (carryFields ex ne) ex hInv.1 hex
        (by rw [hkeyc, hkex])
      refine ⟨⟨?_, ?_⟩, ?_, ?_⟩
      · show (keysOf (st.existing.set idx (carryFields ex ne))).Nodup
        rw [hkeysSet]; exact hInv.1
      · intro k
        show dget (dset st.bykey (evKey ne) idx) k =
          idxOfKey (st.existing.set idx (carryFields ex ne)) k
        rw [dget_dset]
        rw [show idxOfKey (st.existing.set idx (carryFields ex ne)) k =
          idxOfKey st.existing k by unfold idxOfKey; rw [hkeysSet]]
        by_cases hks : evKey ne = k
        · subst hks; rw [hidx, if_pos rfl]
        · rw [if_neg hks, hInv.2]
      · intro k hk
        show lookupKey (st.existing.set idx (carryFields ex ne)) k = lookupKey st.existing k
        rw [hlset k, if_neg (fun hcon => hk (hkex ▸ hcon).symm)]
      · show lookupKey (st.existing.set idx (carryFields ex ne)) (evKey ne) =
          some (candResult st.existing ne)
        rw [hlset (evKey ne), if_pos hkex]
        simp only [candResult, hlook]
        rw [if_pos hc]
    · rw [hexD] at hc
      by_cases hu : ex.url = ""
      · rw [candStep_eq_url st ne idx hd (by rw [hexD]; exact hc) (by rw [hexD]; exact hu)]
        rw [hexD]
        have hkeyu : evKey { ex with url := ne.url } = evKey ex := rfl
        have hkeysSet : keysOf (st.existing.set idx { ex with url := ne.url }) =
            keysOf st.existing := by
          rw [keysOf_set, hkeyu, hkex, set_self_of_getElem? _ _ _ hkeys_idx]
        have hlset := lookupKey_set st.existing idx { ex with url := ne.url } ex hInv.1 hex rfl
        refine ⟨⟨?_, ?_⟩, ?_, ?_⟩
        · show (keysOf (st.existing.set idx { ex with url := ne.url })).Nodup
          rw [hkeysSet]; exact hInv.1
        · intro k
          show dget st.bykey k = idxOfKey (st.existing.set idx { ex with url := ne.url }) k
          rw [show idxOfKey (st.existing.set idx { ex with url := ne.url }) k =
            idxOfKey st.existing k by unfold idxOfKey; rw [hkeysSet]]
          exact hInv.2 k
        · intro k hk
          show lookupKey (st.existing.set idx { ex with url := ne.url }) k =
            lookupKey st.existing k
          rw [hlset k, if_neg (fun hcon => hk (hkex ▸ hcon).symm)]
        · show lookupKey (st.existing.set idx { ex with url := ne.url }) (evKey ne) =
            some (candResult st.existing ne)
          rw [hlset (evKey ne), if_pos hkex]
          simp only [candResult, hlook]
          rw [if_neg hc, if_pos hu]
      · rw [candStep_eq_skip st ne idx hd (by rw [hexD]; exact hc) (by rw [hexD]; exact hu)]
        refine ⟨hInv, fun k hk => rfl, ?_⟩
        rw [hlook]
        simp only [candResult, hlook]
        rw [if_neg hc, if_neg hu]

theorem find?_key_self_of_nodup (C : List Event) (c : Event)
    (hnd : (C.map evKey).Nodup) (hc : c ∈ C) :
    C.find? (fun x => decide (evKey x = evKey c)) = some c := by
  induction C with
  | nil => simp at hc
  | cons x rest ih =>
    have hx_notin : evKey x ∉ rest.map evKey := (List.nodup_cons.mp hnd).1
    have hnd' := (List.nodup_cons.mp hnd).2
    rcases List.mem_cons.mp hc with rfl | hm
    · simp [List.find?]
    · have hxc : evKey x ≠ evKey c := by
        intro hcon
        exact hx_notin (hcon ▸ List.mem_map_of_mem evKey hm)
      simp only [List.find?]
      rw [show (decide (evKey x = evKey c)) = false by simp [hxc]]
      exact ih hnd' hm

theorem candsFold_MInv (C : List Event) (st : MergeState) (hInv : MInv st) :
    MInv (C.foldl candStep st) := by
  induction C generalizing st with
  | nil => exact hInv
  | cons c rest ih => exact ih (candStep st c) (candStep_main st c hInv).1

theorem candsFold_spec (C : List Event) (st : MergeState) (hInv : MInv st)
    (hnd : (C.map evKey).Nodup) :
    ∀ k, lookupKey (C.foldl candStep st).existing k =
      match C.find? (fun c => decide (evKey c = k)) with
      | none => lookupKey st.existing k
      | some c => some (candResult st.existing c) := by
  induction C generalizing st with
  | nil => intro k; simp [List.find?]
  | cons c rest ih =>
    intro k
    have hc_notin : evKey c ∉ rest.map evKey := (List.nodup_cons.mp hnd).1
    have hnd' := (List.nodup_cons.mp hnd).2
    obtain ⟨hInv1, hframe, hself⟩ := candStep_main st c hInv
    rw [show (c :: rest).foldl candStep st = rest.foldl candStep (candStep st c) from rfl]
    rw [ih (candStep st c) hInv1 hnd' k]
    by_cases hk : evKey c = k
    · subst hk
      have hrest_none : rest.find? (fun x => decide (evKey x = evKey c)) = none := by
        rw [List.find?_eq_none]
        intro x hx
        simp only [decide_eq_true_eq]
        intro hcon
        exact hc_notin (hcon ▸ List.mem_map_of_mem evKey hx)
      rw [hrest_none, hself]
      simp [List.find?]
    · have hfind_cons : (c :: rest).find? (fun x => decide (evKey x = k)) =
          rest.find? (fun x => decide (evKey x = k)) := by
        simp only [List.find?]
        rw [show (decide (evKey c = k)) = false by simp [hk]]
      rw [hfind_cons]
      cases hf : rest.find? (fun x => decide (evKey x = k)) with
      | none => exact hframe k (fun hcon => hk hcon.symm)
      | some c2 =>
        have hk2 : evKey c2 = k := by simpa using List.find?_some hf
        have hlk : lookupKey (candStep st c).existing (evKey c2) =
            lookupKey st.existing (evKey c2) := by
          rw [hk2]; exact hframe k (fun hcon => hk hcon.symm)
        show some (candResult (candStep st c).existing c2) = some (candResult st.existing c2)
        rw [show candResult (candStep st c).existing c2 = candResult st.existing c2 by
          unfold candResult; rw [hlk]]

theorem lookupKey_filter (p : Event → Bool) (l : List Event)
    (hnd : (keysOf l).Nodup) (k : EvKey) :
    lookupKey (l.filter p) k =
      match lookupKey l k with
      | none => none
      | some r => if p r then some r else none := by
  induction l with
  | nil => simp [lookupKey]
  | cons x rest ih =>
    have hx_notin : evKey x ∉ keysOf rest :=
      (List.nodup_cons.mp (by simpa [keysOf] using hnd)).1
    have hnd' : (keysOf rest).Nodup :=
      (List.nodup_cons.mp (by simpa [keysOf] using hnd)).2
    by_cases hk : evKey x = k
    · subst hk
      have hrest : lookupKey rest (evKey x) = none := (lookupKey_eq_none _ _).mpr hx_notin
      cases hp : p x with
      | true =>
        rw [List.filter_cons_of_pos hp]
        simp [lookupKey, hp]
      | false =>
        rw [List.filter_cons_of_neg (by simp [hp])]
        rw [ih hnd', hrest]
        simp [lookupKey, hp]
    · cases hp : p x with
      | true =>
        rw [List.filter_cons_of_pos hp]
        simp only [lookupKey, if_neg hk]
        exact ih hnd'
      | false =>
        rw [List.filter_cons_of_neg (by simp [hp])]
        simp only [lookupKey, if_neg hk]
        exact ih hnd'

theorem keysOf_filter_nodup (p : Event → Bool) (l : List Event)
    (hnd : (keysOf l).Nodup) : (keysOf (l.filter p)).Nodup :=
  List.Nodup.sublist (List.Sublist.map evKey (List.filter_sublist l)) hnd

theorem filter_idem (p : Event → Bool) (l : List Event) :
    (l.filter p).filter p = l.filter p := by
  induction l with
  | nil => rfl
  | cons x rest ih =>
    cases hp : p x with
    | true => simp [List.filter_cons, hp, ih]
    | false => simp [List.filter_cons, hp, ih]

theorem keepEvent_congr (h : Int) (e f : Event) (hs : e.start = f.start) :
    keepEvent h e = keepEvent h f := by
  unfold keepEvent
  rw [hs]

theorem candStep_noop (h : Int) (st : MergeState) (c : Event) (hInv : MInv st)
    (hg : GoodFor h st.existing c) :
    (candStep st c).added = st.added ∧
    (candStep st c).changed = st.changed ∧
    (candStep st c).existing.filter (keepEvent h) = st.existing.filter (keepEvent h) ∧
    MInv (candStep st c) ∧
    (∀ d, GoodFor h st.existing d → GoodFor h (candStep st c).existing d) := by
  obtain ⟨r, hrmem, hrkey, hrday, hrurl⟩ := hg
  have hlook : lookupKey st.existing (evKey c) = some r := by
    rw [← hrkey]; exact lookupKey_of_mem _ _ hInv.1 hrmem
  cases hidxv : idxOfKey st.existing (evKey c) with
  | none =>
    exfalso
    rw [lookupKey_idxOfKey, hidxv] at hlook
    exact absurd hlook (by simp)
  | some idx =>
    have hd : dget st.bykey (evKey c) = some idx := by rw [hInv.2]; exact hidxv
    obtain ⟨ex, hex, hkex⟩ := idxOfKey_get _ _ _ hidxv
    have hexr : ex = r := by
      have h2 : lookupKey st.existing (evKey c) = some ex := by
        rw [lookupKey_idxOfKey, hidxv]; simpa using hex
      exact Option.some.inj (h2.symm.trans hlook)
    subst hexr
    have hexD : st.existing.getD idx defaultEvent = ex := by
      rw [List.getD_eq_getElem?_getD, hex]; rfl
    have hcond : ¬(pyTake 10 (st.existing.getD idx defaultEvent).start ≠ pyTake 10 c.start ∨
        pyTake 10 (st.existing.getD idx defaultEvent).end_ ≠ pyTake 10 c.end_) := by
      rw [hexD]
      push_neg
      exact ⟨hrday.1, hrday.2⟩
    have hlt : idx < st.existing.length := by
      by_contra hcon
      rw [List.getElem?_eq_none (by omega)] at hex
      exact absurd hex (by simp)
    by_cases hu : (st.existing.getD idx defaultEvent).url = ""
    · have hstep := candStep_eq_url st c idx hd hcond hu
      rw [hexD] at hu
      cases hkeep : keepEvent h ex with
      | true =>
        have hcu : c.url = "" := hrurl hkeep hu
        have hsame : ({ ex with url := c.url } : Event) = ex := by
          have hce : c.url = ex.url := hcu.trans hu.symm
          rw [hce]
        have hstep2 : candStep st c = st := by
          rw [hstep, hexD, hsame, set_self_of_getElem? _ _ _ hex]
        rw [hstep2]
        exact ⟨rfl, rfl, rfl, hInv, fun d hd => hd⟩
      | false =>
        refine ⟨by rw [hstep], by rw [hstep], ?_, (candStep_main st c hInv).1, ?_⟩
        · rw [hstep]
          show (st.existing.set idx { st.existing.getD idx defaultEvent with
            url := c.url }).filter (keepEvent h) = st.existing.filter (keepEvent h)
          rw [hexD]
          have hkeep2 : keepEvent h { ex with url := c.url } = false := by
            rw [keepEvent_congr h { ex with url := c.url } ex rfl]
            exact hkeep
          exact filter_set_invisible _ _ _ _ _ hex hkeep hkeep2
        · intro d hdg
          obtain ⟨r', hr'mem, hr'key, hr'day, hr'url⟩ := hdg
          rw [hstep]
          show GoodFor h (st.existing.set idx { st.existing.getD idx defaultEvent with
            url := c.url }) d
          rw [hexD]
          by_cases hdk : evKey d = evKey c
          · have hr'ex : r' = ex := by
              have l1 : lookupKey st.existing (evKey d) = some r' := by
                rw [← hr'key]; exact lookupKey_of_mem _ _ hInv.1 hr'mem
              rw [hdk, hlook] at l1
              exact (Option.some.inj l1).symm
            rw [hr'ex] at hr'key hr'day
            refine ⟨{ ex with url := c.url }, mem_set_self _ _ _ hlt, ?_, ?_, ?_⟩
            · show evKey ex = evKey d
              exact hr'key
            · exact hr'day
            · intro hkp
              rw [keepEvent_congr h { ex with url := c.url } ex rfl, hkeep] at hkp
              exact absurd hkp (by simp)
          · have hr'ne : r' ≠ ex := by
              intro hcon
              exact hdk ((hr'key.symm.trans (congrArg evKey hcon)).trans hkex)
            exact ⟨r', mem_set_of_ne _ _ _ _ _ hr'mem hex hr'ne, hr'key, hr'day, hr'url⟩
    · have hstep : candStep st c = st := candStep_eq_skip st c idx hd hcond hu
      rw [hstep]
      exact ⟨rfl, rfl, rfl, hInv, fun d hd => hd⟩

theorem candsFold_noop (h : Int) (C : List Event) (st : MergeState) (hInv : MInv st)
    (hg : ∀ c ∈ C, GoodFor h st.existing c) :
    (C.foldl candStep st).added = st.added ∧
    (C.foldl candStep st).changed = st.changed ∧
    (C.foldl candStep st).existing.filter (keepEvent h) =
      st.existing.filter (keepEvent h) := by
  induction C generalizing st with
  | nil => exact ⟨rfl, rfl, rfl⟩
  | cons c rest ih =>
    obtain ⟨ha, hc2, hf, hInv', htr⟩ := candStep_noop h st c hInv (hg c (List.mem_cons_self _ _))
    obtain ⟨ha2, hc3, hf2⟩ := ih (candStep st c) hInv'
      (fun d hd => htr d (hg d (List.mem_cons_of_mem _ hd)))
    exact ⟨by rw [show (c :: rest).foldl candStep st = rest.foldl candStep (candStep st c)
        from rfl, ha2, ha],
      by rw [show (c :: rest).foldl candStep st = rest.foldl candStep (candStep st c)
        from rfl, hc3, hc2],
      by rw [show (c :: rest).foldl candStep st = rest.foldl candStep (candStep st c)
        from rfl, hf2, hf]⟩

theorem candStep_reports (st : MergeState) (c : Event) :
    ((candStep st c).added = st.added ++ [c] ∧ (candStep st c).changed = st.changed) ∨
    ((candStep st c).added = st.added ∧
      ∃ r, evKey r = evKey c ∧ (candStep st c).changed = st.changed ++ [r]) ∨
    ((candStep st c).added = st.added ∧ (candStep st c).changed = st.changed) := by
  cases hd : dget st.bykey (evKey c) with
  | none =>
    rw [candStep_eq_none st c hd]
    exact Or.inl ⟨rfl, rfl⟩
  | some idx =>
    by_cases hc : pyTake 10 (st.existing.getD idx defaultEvent).start ≠ pyTake 10 c.start ∨
        pyTake 10 (st.existing.getD idx defaultEvent).end_ ≠ pyTake 10 c.end_
    · rw [candStep_eq_changed st c idx hd hc]
      exact Or.inr (Or.inl ⟨rfl, carryFields (st.existing.getD idx defaultEvent) c, rfl, rfl⟩)
    · by_cases hu : (st.existing.getD idx defaultEvent).url = ""
      · rw [candStep_eq_url st c idx hd hc hu]
        exact Or.inr (Or.inr ⟨rfl, rfl⟩)
      · rw [candStep_eq_skip st c idx hd hc hu]
        exact Or.inr (Or.inr ⟨rfl, rfl⟩)

theorem candsFold_disjoint (C : List Event) (st : MergeState)
    (hnd : (C.map evKey).Nodup)
    (hpre : ∀ x, (x ∈ st.added ∨ x ∈ st.changed) → evKey x ∉ C.map evKey)
    (hdis : ∀ a ∈ st.added, ∀ b ∈ st.changed, evKey a ≠ evKey b) :
    ∀ a ∈ (C.foldl candStep st).added, ∀ b ∈ (C.foldl candStep st).changed,
      evKey a ≠ evKey b := by
  induction C generalizing st with
  | nil => exact hdis
  | cons c rest ih =>
    have hc_notin : evKey c ∉ rest.map evKey := (List.nodup_cons.mp hnd).1
    have hnd' := (List.nodup_cons.mp hnd).2
    have hkey_c : evKey c ∈ (c :: rest).map evKey := by simp
    rw [show (c :: rest).foldl candStep st = rest.foldl candStep (candStep st c) from rfl]
    refine ih (candStep st c) hnd' ?_ ?_
    · intro x hx
      rcases candStep_reports st c with ⟨ha, hc2⟩ | ⟨ha, r, hrk, hc2⟩ | ⟨ha, hc2⟩ <;>
        rw [ha, hc2] at hx
      · rcases hx with hx | hx
        · rcases List.mem_append.mp hx with hx | hx
          · intro hmem
            exact hpre x (Or.inl hx) (List.mem_cons_of_mem _ hmem)
          · have : x = c := by simpa using hx
            subst this
            exact hc_notin
        · intro hmem
          exact hpre x (Or.inr hx) (List.mem_cons_of_mem _ hmem)
      · rcases hx with hx | hx
        · intro hmem
          exact hpre x (Or.inl hx) (List.mem_cons_of_mem _ hmem)
        · rcases List.mem_append.mp hx with hx | hx
          · intro hmem
            exact hpre x (Or.inr hx) (List.mem_cons_of_mem _ hmem)
          · have : x = r := by simpa using hx
            subst this
            rw [hrk]
            exact hc_notin
      · intro hmem
        exact hpre x hx (List.mem_cons_of_mem _ hmem)
    · intro a ha b hb
      rcases candStep_reports st c with ⟨hA, hC2⟩ | ⟨hA, r, hrk, hC2⟩ | ⟨hA, hC2⟩ <;>
        rw [hA] at ha <;> rw [hC2] at hb
      · rcases List.mem_append.mp ha with ha | ha
        · exact hdis a ha b hb
        · have : a = c := by simpa using ha
          subst this
          intro hcon
          exact hpre b (Or.inr hb) (hcon ▸ hkey_c)
      · rcases List.mem_append.mp hb with hb | hb
        · exact hdis a ha b hb
        · have : b = r := by simpa using hb
          subst this
          intro hcon
          exact hpre a (Or.inl ha) ((hcon.trans hrk).symm ▸ hkey_c)
      · exact hdis a ha b hb

/-- C1 (amended): reconciliation is idempotent provided the starting store
has pairwise-distinct identity keys, the candidate batch has
pairwise-distinct identity keys, and every starting record and every
candidate survives horizon pruning; a second run with the same seeds and
candidates returns the same store and empty added/changed reports. -/
theorem reconcile_idempotent_of_kept (horizon : Int) (E S C : List Event)
    (hE : (E.map evKey).Nodup)
    (hEkeep : ∀ e ∈ E, keepEvent horizon e = true)
    (hC : (C.map evKey).Nodup)
    (hCkeep : ∀ c ∈ C, keepEvent horizon c = true) :
    (reconcile horizon (reconcile horizon E S C).store S C).store =
      (reconcile horizon E S C).store ∧
    (reconcile horizon (reconcile horizon E S C).store S C).added = [] ∧
    (reconcile horizon (reconcile horizon E S C).store S C).changed = [] := by
  have hInv0 : MInv ⟨E, bykey0 E, [], []⟩ := MInv_init E hE
  obtain ⟨hInvS, haddS, hchgS, hlkS, insS, hinsS, hinsSp⟩ :=
    seedsFold_spec S ⟨E, bykey0 E, [], []⟩ hInv0
  simp only [show (⟨E, bykey0 E, [], []⟩ : MergeState).existing = E from rfl] at hlkS
  set stS : MergeState := S.foldl seedStep ⟨E, bykey0 E, [], []⟩ with hstS
  have hInv1 : MInv (C.foldl candStep stS) := candsFold_MInv C stS hInvS
  have hlk1 := candsFold_spec C stS hInvS hC
  set st1 : MergeState := C.foldl candStep stS with hst1
  set store1 : List Event := st1.existing.filter (keepEvent horizon) with hstore1
  have hrec1 : reconcile horizon E S C = ⟨store1, st1.added, st1.changed⟩ := rfl
  have hnd1 : (keysOf st1.existing).Nodup := hInv1.1
  have hlkStore : ∀ k, lookupKey store1 k =
      match lookupKey st1.existing k with
      | none => none
      | some r => if keepEvent horizon r then some r else none :=
    fun k => lookupKey_filter (keepEvent horizon) st1.existing hnd1 k
  have hndStore : (keysOf store1).Nodup := keysOf_filter_nodup _ _ hnd1
  have hInv0' : MInv ⟨store1, bykey0 store1, [], []⟩ := MInv_init store1 hndStore
  obtain ⟨hInvS', haddS', hchgS', hlkS', insS', hinsS', hinsS'p⟩ :=
    seedsFold_spec S ⟨store1, bykey0 store1, [], []⟩ hInv0'
  simp only [show (⟨store1, bykey0 store1, [], []⟩ : MergeState).existing = store1 from rfl]
    at hlkS' hinsS' hinsS'p
  simp only [show (⟨store1, bykey0 store1, [], []⟩ : MergeState).added = ([] : List Event)
    from rfl] at haddS'
  simp only [show (⟨store1, bykey0 store1, [], []⟩ : MergeState).changed = ([] : List Event)
    from rfl] at hchgS'
  set stS' : MergeState := S.foldl seedStep ⟨store1, bykey0 store1, [], []⟩ with hstS'
  -- a record surviving in the first run's merged list and kept is in store1
  have hkeptPath : ∀ k w, lookupKey st1.existing k = some w →
      keepEvent horizon w = true → lookupKey stS'.existing k = some w := by
    intro k w hw hkw
    have h2 : lookupKey store1 k = some w := by
      simp only [hlkStore k, hw, hkw, if_true]
    simp only [hlkS' k, h2]
  -- a record present but pruned leaves the key to the second run's seeds
  have hprunedPath : ∀ k w, lookupKey st1.existing k = some w →
      keepEvent horizon w = false → lookupKey stS'.existing k =
        S.find? (fun s => decide (evKey s = k)) := by
    intro k w hw hkw
    have h2 : lookupKey store1 k = none := by
      simp only [hlkStore k, hw, hkw, if_false, Bool.false_eq_true]
    simp only [hlkS' k, h2]
  -- (alpha): after run 1 and run 2's seed phase, every candidate is matched
  -- by a same-day record whose surviving url is compatible
  have halpha : ∀ c ∈ C, GoodFor horizon stS'.existing c := by
    intro c hcmem
    have hfindC : C.find? (fun x => decide (evKey x = evKey c)) = some c :=
      find?_key_self_of_nodup C c hC hcmem
    have hmc : lookupKey st1.existing (evKey c) = some (candResult stS.existing c) := by
      rw [hlk1 (evKey c), hfindC]
    have hkc : keepEvent horizon c = true := hCkeep c hcmem
    cases hS : lookupKey stS.existing (evKey c) with
    | none =>
      have hv : candResult stS.existing c = c := by simp only [candResult, hS]
      rw [hv] at hmc
      have hfin := hkeptPath (evKey c) c hmc hkc
      exact ⟨c, (lookupKey_mem _ _ _ hfin).1, rfl, ⟨rfl, rfl⟩, fun _ h2 => h2⟩
    | some ex =>
      have hkex : evKey ex = evKey c := (lookupKey_mem _ _ _ hS).2
      by_cases hcnd : pyTake 10 ex.start ≠ pyTake 10 c.start ∨
          pyTake 10 ex.end_ ≠ pyTake 10 c.end_
      · have hv : candResult stS.existing c = carryFields ex c := by
          simp only [candResult, hS]; rw [if_pos hcnd]
        rw [hv] at hmc
        have hkcf : keepEvent horizon (carryFields ex c) = true := by
          rw [keepEvent_congr horizon (carryFields ex c) c rfl]; exact hkc
        have hfin := hkeptPath (evKey c) (carryFields ex c) hmc hkcf
        exact ⟨carryFields ex c, (lookupKey_mem _ _ _ hfin).1, rfl, ⟨rfl, rfl⟩,
          fun _ h2 => h2⟩
      · have hday : dayEq ex c := by
          constructor
          · by_contra hcon; exact hcnd (Or.inl hcon)
          · by_contra hcon; exact hcnd (Or.inr hcon)
        -- where the matched record came from
        have hSx := hlkS (evKey c)
        rw [hS] at hSx
        by_cases hu : ex.url = ""
        · have hv : candResult stS.existing c = { ex with url := c.url } := by
            simp only [candResult, hS]; rw [if_neg hcnd, if_pos hu]
          rw [hv] at hmc
          cases hkex2 : keepEvent horizon ex with
          | true =>
            have hkv : keepEvent horizon { ex with url := c.url } = true := by
              rw [keepEvent_congr horizon { ex with url := c.url } ex rfl]; exact hkex2
            have hfin := hkeptPath (evKey c) _ hmc hkv
            refine ⟨{ ex with url := c.url }, (lookupKey_mem _ _ _ hfin).1, hkex, hday,
              fun _ h2 => h2⟩
          | false =>
            have hkv : keepEvent horizon { ex with url := c.url } = false := by
              rw [keepEvent_congr horizon { ex with url := c.url } ex rfl]; exact hkex2
            have hfin := hprunedPath (evKey c) _ hmc hkv
            -- ex must have come from the seeds
            cases hE1 : lookupKey E (evKey c) with
            | some r0 =>
              exfalso
              simp only [hE1] at hSx
              have hexr0 : ex = r0 := Option.some.inj hSx
              have hkr0 : keepEvent horizon r0 = true :=
                hEkeep r0 (lookupKey_mem _ _ _ hE1).1
              rw [hexr0, hkr0] at hkex2
              exact absurd hkex2 (by simp)
            | none =>
              simp only [hE1] at hSx
              rw [← hSx] at hfin
              exact ⟨ex, (lookupKey_mem _ _ _ hfin).1, hkex, hday,
                fun hkp => by rw [hkex2] at hkp; exact absurd hkp (by simp)⟩
        · have hv : candResult stS.existing c = ex := by
            simp only [candResult, hS]; rw [if_neg hcnd, if_neg hu]
          rw [hv] at hmc
          cases hkex2 : keepEvent horizon ex with
          | true =>
            have hfin := hkeptPath (evKey c) ex hmc hkex2
            exact ⟨ex, (lookupKey_mem _ _ _ hfin).1, hkex, hday,
              fun _ h2 => absurd h2 hu⟩
          | false =>
            have hfin := hprunedPath (evKey c) ex hmc hkex2
            cases hE1 : lookupKey E (evKey c) with
            | some r0 =>
              exfalso
              simp only [hE1] at hSx
              have hexr0 : ex = r0 := Option.some.inj hSx
              have hkr0 : keepEvent horizon r0 = true :=
                hEkeep r0 (lookupKey_mem _ _ _ hE1).1
              rw [hexr0, hkr0] at hkex2
              exact absurd hkex2 (by simp)
            | none =>
              simp only [hE1] at hSx
              rw [← hSx] at hfin
              exact ⟨ex, (lookupKey_mem _ _ _ hfin).1, hkex, hday,
                fun hkp => by rw [hkex2] at hkp; exact absurd hkp (by simp)⟩
  -- (beta): every seed inserted by the second run is itself pruned
  have hbeta : ∀ x ∈ insS', keepEvent horizon x = false := by
    intro x hx
    obtain ⟨hxS, hxnone, hxfind⟩ := hinsS'p x hx
    have hcontra : ∀ v, lookupKey st1.existing (evKey x) = some v →
        keepEvent horizon v = true → False := by
      intro v hv hkv
      have h2 : lookupKey store1 (evKey x) = some v := by
        simp only [hlkStore (evKey x), hv, hkv, if_true]
      rw [h2] at hxnone
      exact absurd hxnone (by simp)
    have hm := hlk1 (evKey x)
    cases hCf : C.find? (fun c => decide (evKey c = evKey x)) with
    | none =>
      simp only [hCf] at hm
      rw [hlkS (evKey x)] at hm
      cases hE1 : lookupKey E (evKey x) with
      | some r0 =>
        exfalso
        simp only [hE1] at hm
        exact hcontra r0 hm (hEkeep r0 (lookupKey_mem _ _ _ hE1).1)
      | none =>
        simp only [hE1, hxfind] at hm
        cases hk : keepEvent horizon x with
        | false => rfl
        | true => exact absurd (hcontra x hm hk) id
    | some c =>
      have hkc : keepEvent horizon c = true := hCkeep c (List.mem_of_find?_eq_some hCf)
      simp only [hCf] at hm
      have hkeyc : evKey c = evKey x := by simpa using List.find?_some hCf
      have hSx := hlkS (evKey x)
      rw [← hkeyc] at hSx hxfind
      cases hE1 : lookupKey E (evKey c) with
      | some r0 =>
        exfalso
        simp only [hE1] at hSx
        have hkr0 : keepEvent horizon r0 = true := hEkeep r0 (lookupKey_mem _ _ _ hE1).1
        have hkv : keepEvent horizon (candResult stS.existing c) = true := by
          simp only [candResult, hSx]
          by_cases hcnd : pyTake 10 r0.start ≠ pyTake 10 c.start ∨
              pyTake 10 r0.end_ ≠ pyTake 10 c.end_
          · rw [if_pos hcnd]
            rw [keepEvent_congr horizon (carryFields r0 c) c rfl]
            exact hkc
          · rw [if_neg hcnd]
            by_cases hu : r0.url = ""
            · rw [if_pos hu]
              rw [keepEvent_congr horizon { r0 with url := c.url } r0 rfl]
              exact hkr0
            · rw [if_neg hu]
              exact hkr0
        exact hcontra _ hm hkv
      | none =>
        simp only [hE1] at hSx
        simp only [hxfind] at hSx
        have hres : candResult stS.existing c =
            (if pyTake 10 x.start ≠ pyTake 10 c.start ∨
                pyTake 10 x.end_ ≠ pyTake 10 c.end_ then carryFields x c
             else if x.url = "" then { x with url := c.url } else x) := by
          simp only [candResult, hSx]
        by_cases hcnd : pyTake 10 x.start ≠ pyTake 10 c.start ∨
            pyTake 10 x.end_ ≠ pyTake 10 c.end_
        · exfalso
          rw [if_pos hcnd] at hres
          have hkv : keepEvent horizon (candResult stS.existing c) = true := by
            rw [hres, keepEvent_congr horizon (carryFields x c) c rfl]; exact hkc
          exact hcontra _ hm hkv
        · rw [if_neg hcnd] at hres
          cases hk : keepEvent horizon x with
          | false => rfl
          | true =>
            exfalso
            have hkv : keepEvent horizon (candResult stS.existing c) = true := by
              rw [hres]
              by_cases hu : x.url = ""
              · rw [if_pos hu]
                rw [keepEvent_congr horizon { x with url := c.url } x rfl]
                exact hk
              · rw [if_neg hu]
                exact hk
            exact hcontra _ hm hkv
  -- run 2 candidate phase is a value-level no-op on the surviving records
  obtain ⟨haddN, hchgN, hfilN⟩ := candsFold_noop horizon C stS' hInvS' halpha
  have hrec2 : reconcile horizon store1 S C =
      ⟨(C.foldl candStep stS').existing.filter (keepEvent horizon),
        (C.foldl candStep stS').added, (C.foldl candStep stS').changed⟩ := rfl
  have hstore1fix : store1.filter (keepEvent horizon) = store1 := by
    rw [hstore1]
    exact filter_idem _ _
  have hins'nil : insS'.filter (keepEvent horizon) = [] := by
    rw [List.filter_eq_nil_iff]
    intro x hx
    simp [hbeta x hx]
  have hstore2 : (C.foldl candStep stS').existing.filter (keepEvent horizon) = store1 := by
    rw [hfilN, hinsS', List.filter_append, hstore1fix, hins'nil, List.append_nil]
  refine ⟨?_, ?_, ?_⟩
  · rw [hrec1]
    show (reconcile horizon store1 S C).store = store1
    rw [hrec2]
    exact hstore2
  · rw [hrec1]
    show (reconcile horizon store1 S C).added = []
    rw [hrec2]
    show (C.foldl candStep stS').added = []
    rw [haddN, haddS']
  · rw [hrec1]
    show (reconcile horizon store1 S C).changed = []
    rw [hrec2]
    show (C.foldl candStep stS').changed = []
    rw [hchgN, hchgS']

theorem seedsFold_reports (S : List Event) (st : MergeState) :
    (S.foldl seedStep st).added = st.added ∧ (S.foldl seedStep st).changed = st.changed := by
  induction S generalizing st with
  | nil => exact ⟨rfl, rfl⟩
  | cons s rest ih =>
    have hstep : (seedStep st s).added = st.added ∧ (seedStep st s).changed = st.changed := by
      unfold seedStep
      by_cases hd : (dget st.bykey (evKey s)).isSome = true
      · rw [if_pos hd]; exact ⟨rfl, rfl⟩
      · rw [if_neg hd]; exact ⟨rfl, rfl⟩
    obtain ⟨h1, h2⟩ := ih (seedStep st s)
    exact ⟨h1.trans hstep.1, h2.trans hstep.2⟩

/-- C2: starting from a persisted store whose identity keys are pairwise
distinct, the reconciliation output store (after manual-seed insertion, the
candidate loop and horizon pruning) contains no two records with the same
identity key, for every seed list and candidate batch. -/
theorem reconcile_key_uniqueness (horizon : Int) (E S C : List Event)
    (hE : (E.map evKey).Nodup) :
    ((reconcile horizon E S C).store.map evKey).Nodup := by
  have hInv0 : MInv ⟨E, bykey0 E, [], []⟩ := MInv_init E hE
  have hInvS := (seedsFold_spec S ⟨E, bykey0 E, [], []⟩ hInv0).1
  have hInv1 := candsFold_MInv C (S.foldl seedStep ⟨E, bykey0 E, [], []⟩) hInvS
  exact keysOf_filter_nodup (keepEvent horizon) _ hInv1.1

/-- C3 (amended): when the candidate batch's identity keys are pairwise
distinct, no identity key occurs both in the added and in the changed
report of a reconciliation run. -/
theorem added_changed_key_disjoint (horizon : Int) (E S C : List Event)
    (hC : (C.map evKey).Nodup) :
    ∀ a ∈ (reconcile horizon E S C).added, ∀ b ∈ (reconcile horizon E S C).changed,
      evKey a ≠ evKey b := by
  intro a ha b hb
  have hrep := seedsFold_reports S ⟨E, bykey0 E, [], []⟩
  have ha2 : a ∈ (C.foldl candStep (S.foldl seedStep ⟨E, bykey0 E, [], []⟩)).added := ha
  have hb2 : b ∈ (C.foldl candStep (S.foldl seedStep ⟨E, bykey0 E, [], []⟩)).changed := hb
  refine candsFold_disjoint C (S.foldl seedStep ⟨E, bykey0 E, [], []⟩) hC ?_ ?_ a ha2 b hb2
  · intro x hx
    rcases hx with hx | hx
    · rw [hrep.1] at hx
      exact absurd hx (by simp)
    · rw [hrep.2] at hx
      exact absurd hx (by simp)
  · intro a2 ha3
    rw [hrep.1] at ha3
    exact absurd ha3 (by simp)

/-- C4 (amended): when a candidate's key matches a persisted record and the
day-granular dates differ, the record stored in place keeps the persisted
record's exhibitors and free flag, and its sector exactly when the
persisted sector is non-empty — an empty persisted sector is replaced by
the candidate's own classifier-derived sector. -/
theorem date_change_carry (st : MergeState) (ne : Event) (idx : Nat)
    (hidx : dget st.bykey (evKey ne) = some idx)
    (hdiff : pyTake 10 (st.existing.getD idx defaultEvent).start ≠ pyTake 10 ne.start ∨
             pyTake 10 (st.existing.getD idx defaultEvent).end_ ≠ pyTake 10 ne.end_) :
    ∃ r, (candStep st ne).changed = st.changed ++ [r] ∧
      (candStep st ne).existing = st.existing.set
        (st.existing.findIdx (fun e => decide (e = st.existing.getD idx defaultEvent))) r ∧
      r.exhibitors = (st.existing.getD idx defaultEvent).exhibitors ∧
      r.free = (st.existing.getD idx defaultEvent).free ∧
      r.sector = (if (st.existing.getD idx defaultEvent).sector = [] then ne.sector
                  else (st.existing.getD idx defaultEvent).sector) ∧
      r.title = ne.title ∧ r.start = ne.start ∧ r.end_ = ne.end_ ∧ r.url = ne.url := by
  refine ⟨carryFields (st.existing.getD idx defaultEvent) ne, ?_, ?_, rfl, rfl, rfl,
    rfl, rfl, rfl, rfl⟩
  · rw [candStep_eq_changed st ne idx hidx hdiff]
  · rw [candStep_eq_changed st ne idx hidx hdiff]

/-- C9: a record of the merged sequence whose start parses to an aware
instant strictly beyond now + 190 days is absent from the post-prune store;
one whose start fails to parse is retained (fail open); every other record
(naive parse, or instant at or before the horizon) is retained. -/
theorem horizon_pruning_spec (now : Int) (evs : List Event) (e : Event)
    (he : e ∈ evs) :
    (∀ dt, pyFromIso (pyReplaceZ e.start) = some dt → dt.tz.isSome = true →
      horizonOf now < dtKey dt → e ∉ prune (horizonOf now) evs) ∧
    (pyFromIso (pyReplaceZ e.start) = none → e ∈ prune (horizonOf now) evs) ∧
    (∀ dt, pyFromIso (pyReplaceZ e.start) = some dt →
      (dt.tz = none ∨ dtKey dt ≤ horizonOf now) → e ∈ prune (horizonOf now) evs) := by
  refine ⟨?_, ?_, ?_⟩
  · intro dt hp haw hgt hmem
    rw [prune, List.mem_filter] at hmem
    have hk := hmem.2
    unfold keepEvent at hk
    simp only [hp] at hk
    cases htz : dt.tz with
    | none => rw [htz] at haw; exact absurd haw (by simp)
    | some tz =>
      rw [htz] at hk
      simp only [decide_eq_true_eq] at hk
      omega
  · intro hp
    rw [prune, List.mem_filter]
    refine ⟨he, ?_⟩
    unfold keepEvent
    simp only [hp]
  · intro dt hp hor
    rw [prune, List.mem_filter]
    refine ⟨he, ?_⟩
    unfold keepEvent
    simp only [hp]
    cases htz : dt.tz with
    | none => rfl
    | some tz =>
      rcases hor with hor | hor
      · rw [htz] at hor; exact absurd hor (by simp)
      · simp only [decide_eq_true_eq]
        exact hor

/-- C10: horizon pruning has no lower time bound — a record whose start
parses to any instant at or before now + 190 days, arbitrarily far in the
past, is retained; only `within_window`, the discovery filter on new
candidates, imposes the lower bound `now`. -/
theorem pruning_no_lower_bound (now : Int) (evs : List Event) (e : Event)
    (he : e ∈ evs) (dt : PyDateTime)
    (hp : pyFromIso (pyReplaceZ e.start) = some dt)
    (hle : dtKey dt ≤ horizonOf now) :
    e ∈ prune (horizonOf now) evs ∧
    (∀ t : Int, within_window now t = true ↔
      now ≤ t ∧ t ≤ now + 84 * 86400000000) := by
  constructor
  · rw [prune, List.mem_filter]
    refine ⟨he, ?_⟩
    unfold keepEvent
    simp only [hp]
    cases htz : dt.tz with
    | none => rfl
    | some tz =>
      simp only [decide_eq_true_eq]
      exact hle
  · intro t
    unfold within_window WINDOW_DAYS
    constructor
    · intro h
      simp only [Bool.and_eq_true, decide_eq_true_eq] at h
      omega
    · intro h
      simp only [Bool.and_eq_true, decide_eq_true_eq]
      omega

/-- C7 (amended): the free-text fallback of `extract_events_from_page`
tries the full page body first; whenever the body parses to a date range,
the emitted record carries the body's dates (title case untried), so when
both title and body contain a recognizable pattern the dates come from the
body, not the title. -/
theorem freetext_body_first (defs : List SectorDef) (url titleText html : String)
    (s e : PyDateTime) (h : parse_date_range_text html = .ok (some (s, e))) :
    freeTextFallback defs url titleText html =
      .ok [unify defs (pyStrip titleText) (isoformat s) (isoformat e) "London" url] := by
  unfold freeTextFallback
  simp only [h, bind, Except.bind, pure, Except.pure]

/-- C8 (amended): inside `parse_date_range_text` the bare ISO fragment
search runs first and wins, yielding 09:00 on the ISO date with end =
start + 8 hours; the free-text day range (start 09:00 local on D1, end
17:00 local on D2) applies only when no ISO fragment is present. -/
theorem iso_fragment_precedence :
    (∀ txt ys ms ds, reSearch ISO (normalizeDashes txt).data = some [ys, ms, ds] →
      parse_date_range_text txt =
        (match pyDatetime (natOfDigits ys.data) (natOfDigits ms.data) (natOfDigits ds.data)
            9 0 0 0 (some LONDON_TZ) with
         | .ok start => .ok (some (start, addHours8 start))
         | .error err => .error err)) ∧
    (∀ txt d1s d2s mon ys mn,
      reSearch ISO (normalizeDashes txt).data = none →
      reSearch DATE_RANGE (normalizeDashes txt).data = some [d1s, d2s, mon, ys] →
      monthOfAbbrev (pyLower (pyTake 3 mon)) = some mn →
      parse_date_range_text txt =
        (match pyDatetime (natOfDigits ys.data) mn (natOfDigits d1s.data)
            9 0 0 0 (some LONDON_TZ) with
         | .ok s =>
           (match pyDatetime (natOfDigits ys.data) mn (natOfDigits d2s.data)
               17 0 0 0 (some LONDON_TZ) with
            | .ok e2 => .ok (some (s, e2))
            | .error err => .error err)
         | .error err => .error err)) := by
  constructor
  · intro txt ys ms ds h
    unfold parse_date_range_text
    simp only [h]
  · intro txt d1s d2s mon ys mn hiso hrange hmn
    unfold parse_date_range_text
    simp only [hiso, hrange, hmn]

theorem foldManual_append (defs : List SectorDef) (entry : ManualEntry)
    (hskip : processManualEntry defs entry = .ok none) :
    ∀ (l : List ManualEntry) (acc : List Event),
      (l ++ [entry]).foldlM (fun acc e => do
        match ← processManualEntry defs e with
        | some ev => pure (acc ++ [ev])
        | none => pure acc) acc =
      l.foldlM (fun acc e => do
        match ← processManualEntry defs e with
        | some ev => pure (acc ++ [ev])
        | none => pure acc) acc := by
  intro l
  induction l with
  | nil =>
    intro acc
    simp [List.foldlM, hskip, bind, Except.bind, pure, Except.pure]
  | cons x rest ih =>
    intro acc
    simp only [List.cons_append, List.foldlM]
    cases hx : processManualEntry defs x with
    | error er => simp [hx, bind, Except.bind]
    | ok r =>
      cases r with
      | none => simp only [hx, bind, Except.bind]; exact ih _
      | some ev => simp only [hx, bind, Except.bind]; exact ih _

/-- C6 (amended): a manual seed entry is skipped — contributing no record
to the loaded seed list — iff its title is blank/missing or its start
fails every temporal pattern; a missing (or unparsable) end does not skip
the entry but is defaulted to start + 8 hours. -/
theorem manual_entry_skip (defs : List SectorDef) (entry : ManualEntry)
    (r0 r1 : Option PyDateTime)
    (hs : parse_possible_datetime entry.start = .ok r0)
    (he : parse_possible_datetime entry.end_ = .ok r1) :
    (processManualEntry defs entry = .ok none ↔
      (pyStrip (entry.title.getD "") = "" ∨ r0 = none)) ∧
    (∀ s, r0 = some s → r1 = none → pyStrip (entry.title.getD "") ≠ "" →
      processManualEntry defs entry = .ok (some (unify defs (pyStrip (entry.title.getD ""))
        (isoformat s) (isoformat (addHours8 s)) (entry.venue.getD "London")
        (entry.url.getD "")))) ∧
    (processManualEntry defs entry = .ok none →
      ∀ pre, load_manual_events defs (pre ++ [entry]) = load_manual_events defs pre) := by
  have hpe : processManualEntry defs entry =
      (match r0 with
       | none => .ok none
       | some start =>
         if pyStrip (entry.title.getD "") = "" then .ok none
         else .ok (some (unify defs (pyStrip (entry.title.getD ""))
           (isoformat start) (isoformat (r1.getD (addHours8 start)))
           (entry.venue.getD "London") (entry.url.getD "")))) := by
    unfold processManualEntry
    simp only [hs, he, bind, Except.bind, pure, Except.pure]
    cases r0 with
    | none => rfl
    | some start =>
      by_cases ht : pyStrip (entry.title.getD "") = "" <;> simp [ht]
  refine ⟨?_, ?_, ?_⟩
  · rw [hpe]
    cases r0 with
    | none => simp
    | some start =>
      by_cases ht : pyStrip (entry.title.getD "") = "" <;> simp [ht]
  · intro s hr0 hr1 ht
    subst hr0
    subst hr1
    rw [hpe]
    simp [ht]
  · intro hskip pre
    unfold load_manual_events
    exact foldManual_append defs entry hskip pre []

theorem addHours8_tz (t : PyDateTime) : (addHours8 t).tz = t.tz := by
  unfold addHours8
  split <;> rfl

theorem daysFromCivil_succ_day (y m d : Nat) (hd : 1 ≤ d) :
    daysFromCivil y m (d + 1) = daysFromCivil y m d + 1 := by
  unfold daysFromCivil
  by_cases hm : m ≤ 2 <;> simp only [hm, if_true, if_false, reduceIte] <;> omega

theorem daysFromCivil_nextDay (y m d : Nat) (hy : 1 ≤ y) (hm1 : 1 ≤ m) (hm2 : m ≤ 12)
    (hd1 : 1 ≤ d) (hd2 : d ≤ daysInMonth y m) :
    daysFromCivil (nextDay y m d).1 (nextDay y m d).2.1 (nextDay y m d).2.2 =
      daysFromCivil y m d + 1 := by
  unfold nextDay
  by_cases hlt : d < daysInMonth y m
  · rw [if_pos hlt]
    exact daysFromCivil_succ_day y m d hd1
  · rw [if_neg hlt]
    have hde : d = daysInMonth y m := by omega
    by_cases hm12 : m < 12
    · rw [if_pos hm12]
      subst hde
      interval_cases m <;>
        first
        | (unfold daysInMonth daysFromCivil
           norm_num
           omega)
        | (unfold daysInMonth daysFromCivil
           norm_num
           by_cases hleap : isLeap y = true
           · rw [if_pos hleap]
             unfold isLeap at hleap
             simp only [decide_eq_true_eq, Bool.and_eq_true, Bool.or_eq_true,
               decide_eq_true_eq, Bool.not_eq_true', decide_eq_false_iff_not] at hleap
             omega
           · rw [if_neg hleap]
             unfold isLeap at hleap
             simp only [Bool.not_eq_true, Bool.and_eq_false_iff, Bool.or_eq_false_iff,
               decide_eq_false_iff_not, Bool.not_eq_false', decide_eq_true_eq] at hleap
             omega)
    · rw [if_neg hm12]
      have hm' : m = 12 := by omega
      subst hm'
      subst hde
      unfold daysInMonth daysFromCivil
      norm_num
      omega

theorem wallUSec_addHours8 (t : PyDateTime) (h : ValidDT t) :
    wallUSec (addHours8 t) = wallUSec t + 28800000000 := by
  obtain ⟨h1, h2, h3, h4, h5, h6, h7, h8, h9, h10⟩ := h
  unfold addHours8
  by_cases hh : t.hour + 8 ≤ 23
  · rw [if_pos hh]
    show wallFieldsUSec t.year t.month t.day (t.hour + 8) t.minute t.second t.usecond =
      wallUSec t + 28800000000
    unfold wallUSec wallFieldsUSec
    push_cast
    ring
  · rw [if_neg hh]
    have hcal := daysFromCivil_nextDay t.year t.month t.day h1 h3 h4 h5 h6
    show wallFieldsUSec (nextDay t.year t.month t.day).1 (nextDay t.year t.month t.day).2.1
        (nextDay t.year t.month t.day).2.2 (t.hour + 8 - 24) t.minute t.second t.usecond =
      wallUSec t + 28800000000
    unfold wallUSec wallFieldsUSec
    unfold wallFieldsUSec at hcal
    omega

theorem offsetUSec_naive (t : PyDateTime) (h : t.tz = none) : offsetUSec t = 0 := by
  unfold offsetUSec
  rw [h]

theorem offsetUSec_utc (t : PyDateTime) (h : t.tz = some Tz.utc) : offsetUSec t = 0 := by
  unfold offsetUSec
  rw [h]

theorem offsetUSec_fixed (t : PyDateTime) (o : Int) (h : t.tz = some (Tz.fixed o)) :
    offsetUSec t = o := by
  unfold offsetUSec
  rw [h]

theorem offsetUSec_london (t : PyDateTime) (h : t.tz = some Tz.london) :
    offsetUSec t = 0 ∨ offsetUSec t = 3600000000 := by
  unfold offsetUSec
  simp only [h]
  split <;> simp

theorem dtKey_lt_addHours8 (t : PyDateTime) (h : ValidDT t) :
    dtKey t < dtKey (addHours8 t) := by
  have hw := wallUSec_addHours8 t h
  have htz := addHours8_tz t
  unfold dtKey
  rw [hw]
  cases htz0 : t.tz with
  | none =>
    rw [offsetUSec_naive t htz0, offsetUSec_naive (addHours8 t) (htz.trans htz0)]
    omega
  | some z =>
    cases z with
    | utc =>
      rw [offsetUSec_utc t htz0, offsetUSec_utc (addHours8 t) (htz.trans htz0)]
      omega
    | fixed o =>
      rw [offsetUSec_fixed t o htz0, offsetUSec_fixed (addHours8 t) o (htz.trans htz0)]
      omega
    | london =>
      have h1 := offsetUSec_london t htz0
      have h2 := offsetUSec_london (addHours8 t) (htz.trans htz0)
      omega

theorem pyDatetime_valid (y m d hh mi ss us : Nat) (tz : Option Tz) (t : PyDateTime)
    (h : pyDatetime y m d hh mi ss us tz = .ok t) : ValidDT t := by
  unfold pyDatetime at h
  split at h
  · rename_i hcond
    injection h with h'
    subst h'
    exact hcond
  · exact absurd h (by simp)

theorem except_toOption_some {ε α : Type} (e : Except ε α) (a : α)
    (h : e.toOption = some a) : e = .ok a := by
  cases e with
  | error err => simp [Except.toOption] at h
  | ok v => simp [Except.toOption] at h; rw [h]

theorem ValidDT_set_tz (p : PyDateTime) (z : Option Tz) (h : ValidDT p) :
    ValidDT { p with tz := z } := h

theorem pyFromIso_valid (s : String) (t : PyDateTime) (h : pyFromIso s = some t) :
    ValidDT t := by
  simp only [pyFromIso] at h
  split at h
  · exact absurd h (by simp)
  · split at h
    · exact pyDatetime_valid _ _ _ _ _ _ _ _ _ (except_toOption_some _ _ h)
    · split at h
      · exact absurd h (by simp)
      · exact pyDatetime_valid _ _ _ _ _ _ _ _ _ (except_toOption_some _ _ h)

theorem parse_possible_valid (v : Option String) (t : PyDateTime)
    (h : parse_possible_datetime v = .ok (some t)) : ValidDT t := by
  unfold parse_possible_datetime at h
  cases hs : strTruthy v with
  | none => simp only [hs] at h; exact absurd h (by simp)
  | some v0 =>
    simp only [hs] at h
    by_cases hval : pyStrip v0 = ""
    · simp only [if_pos hval] at h
      exact absurd h (by simp)
    · simp only [if_neg hval] at h
      split at h
      · rename_i d heq
        simp only [Except.ok.injEq, Option.some.injEq] at h
        subst h
        split at heq
        · exact pyFromIso_valid _ _ heq
        · split at heq
          · rename_i p hp
            simp only [Option.some.injEq] at heq
            subst heq
            by_cases hn : p.tz.isNone
            · simp only [if_pos hn]
              exact ValidDT_set_tz p _ (pyFromIso_valid _ _ hp)
            · simp only [if_neg hn]
              exact pyFromIso_valid _ _ hp
          · exact absurd heq (by simp)
      · split at h
        · split at h
          · rename_i dd heqd
            simp only [Except.ok.injEq, Option.some.injEq] at h
            subst h
            exact pyDatetime_valid _ _ _ _ _ _ _ _ _ heqd
          · simp at h
        · split at h
          · split at h
            · rename_i dd heqd
              simp only [Except.ok.injEq, Option.some.injEq] at h
              subst h
              exact pyDatetime_valid _ _ _ _ _ _ _ _ _ heqd
            · simp at h
          · simp at h

theorem parse_ics_valid (v th : Option String) (t : PyDateTime)
    (h : parse_ics_datetime v th = .ok (some t)) : ValidDT t := by
  unfold parse_ics_datetime at h
  cases hs : strTruthy v with
  | none => simp only [hs] at h; exact absurd h (by simp)
  | some v0 =>
    simp only [hs] at h
    split at h
    · split at h
      · rename_i r heq
        simp only [Except.ok.injEq, Option.some.injEq] at h
        subst h
        exact pyDatetime_valid _ _ _ _ _ _ _ _ _ heq
      · simp at h
    · split at h
      · split at h
        · rename_i r heq
          simp only [Except.ok.injEq, Option.some.injEq] at h
          subst h
          exact pyDatetime_valid _ _ _ _ _ _ _ _ _ heq
        · exact parse_possible_valid v t h
      · exact parse_possible_valid v t h

theorem jsonldDates_end_ge (a b c d : Option String) (s e : PyDateTime)
    (h : jsonldDates a b c d = .ok (some (s, e))) : dtKey s ≤ dtKey e := by
  unfold jsonldDates at h
  simp only [bind, Except.bind, pure, Except.pure] at h
  split at h
  · exact absurd h (by simp)
  · split at h
    · exact absurd h (by simp)
    · rename_i sd? heqsd
      split at h
      · exact absurd h (by simp)
      · rename_i sd
        split at h
        · exact absurd h (by simp)
        · rename_i ed? heqed
          split at h
          · exact absurd h (by simp)
          · rename_i lt heqlt
            simp only [Except.ok.injEq, Option.some.injEq, Prod.mk.injEq] at h
            obtain ⟨hse, hee⟩ := h
            subst hse
            have hvalid : ValidDT sd := parse_possible_valid _ sd heqsd
            by_cases hlt : lt = true
            · rw [hlt, if_pos rfl] at hee
              subst hee
              exact le_of_lt (dtKey_lt_addHours8 sd hvalid)
            · have hlt' : lt = false := by
                cases lt
                · rfl
                · exact absurd rfl hlt
              rw [hlt'] at hee
              simp only [Bool.false_eq_true, if_false] at hee
              subst hee
              unfold dtLt at heqlt
              split at heqlt
              · exact absurd heqlt (by simp)
              · exact absurd heqlt (by simp)
              · simp only [Except.ok.injEq] at heqlt
                rw [hlt'] at heqlt
                have := of_decide_eq_false heqlt
                omega

theorem icsDates_end_ge (a b c d : Option String) (s e : PyDateTime)
    (h : icsDates a b c d = .ok (some (s, e))) : dtKey s ≤ dtKey e := by
  unfold icsDates at h
  simp only [bind, Except.bind, pure, Except.pure] at h
  split at h
  · exact absurd h (by simp)
  · rename_i s? heqs
    split at h
    · exact absurd h (by simp)
    · rename_i e? heqe
      split at h
      · exact absurd h (by simp)
      · rename_i sx
        split at h
        · simp only [Except.ok.injEq, Option.some.injEq, Prod.mk.injEq] at h
          obtain ⟨hse, hee⟩ := h
          subst hse
          subst hee
          exact le_of_lt (dtKey_lt_addHours8 sx (parse_ics_valid _ _ sx heqs))
        · rename_i e0
          split at h
          · exact absurd h (by simp)
          · rename_i lt heqlt
            simp only [Except.ok.injEq, Option.some.injEq, Prod.mk.injEq] at h
            obtain ⟨hse, hee⟩ := h
            subst hse
            have hvalid : ValidDT sx := parse_ics_valid _ _ sx heqs
            by_cases hlt : lt = true
            · rw [hlt, if_pos rfl] at hee
              subst hee
              exact le_of_lt (dtKey_lt_addHours8 sx hvalid)
            · have hlt' : lt = false := by
                cases lt
                · rfl
                · exact absurd rfl hlt
              rw [hlt'] at hee
              simp only [Bool.false_eq_true, if_false] at hee
              subst hee
              unfold dtLt at heqlt
              split at heqlt
              · exact absurd heqlt (by simp)
              · exact absurd heqlt (by simp)
              · simp only [Except.ok.injEq] at heqlt
                rw [hlt'] at heqlt
                have := of_decide_eq_false heqlt
                omega

/-- C5 (amended): the JSON-LD and ICS extraction kernels always emit
records whose end instant is not before their start instant (substituting
start + 8 hours when the source end would precede the start); the claim's
universal form over all records is corrected because manual-seed loading
and the free-text fallback perform no such check. -/
theorem end_ge_start_kernels :
    (∀ a b c d s e, jsonldDates a b c d = .ok (some (s, e)) → dtKey s ≤ dtKey e) ∧
    (∀ a b c d s e, icsDates a b c d = .ok (some (s, e)) → dtKey s ≤ dtKey e) :=
  ⟨fun a b c d s e h => jsonldDates_end_ge a b c d s e h,
   fun a b c d s e h => icsDates_end_ge a b c d s e h⟩

/-- The kernel inequality instantiated on a concrete JSON-LD node. -/
theorem end_ge_start_kernels_witness :
    jsonldDates (some "2025-03-12") none (some "2025-03-14") none =
      .ok (some (⟨2025, 3, 12, 0, 0, 0, 0, some Tz.london⟩,
        ⟨2025, 3, 14, 0, 0, 0, 0, some Tz.london⟩)) ∧
    dtKey ⟨2025, 3, 12, 0, 0, 0, 0, some Tz.london⟩ ≤
      dtKey ⟨2025, 3, 14, 0, 0, 0, 0, some Tz.london⟩ :=
  ⟨by rfl, end_ge_start_kernels.1 (some "2025-03-12") none (some "2025-03-14") none
    ⟨2025, 3, 12, 0, 0, 0, 0, some Tz.london⟩ ⟨2025, 3, 14, 0, 0, 0, 0, some Tz.london⟩
    (by rfl)⟩

/-- Idempotence instantiated on a store of one kept record and one kept
new candidate. -/
theorem reconcile_idempotent_of_kept_witness :
    (reconcile 2000000000000000000
        (reconcile 2000000000000000000 [exTech] [] [neOther]).store [] [neOther]).store =
      (reconcile 2000000000000000000 [exTech] [] [neOther]).store ∧
    (reconcile 2000000000000000000
        (reconcile 2000000000000000000 [exTech] [] [neOther]).store [] [neOther]).added = [] ∧
    (reconcile 2000000000000000000
        (reconcile 2000000000000000000 [exTech] [] [neOther]).store [] [neOther]).changed = [] :=
  reconcile_idempotent_of_kept 2000000000000000000 [exTech] [] [neOther]
    (by decide) (by decide) (by decide) (by decide)

/-- Key uniqueness instantiated on a concrete run. -/
theorem reconcile_key_uniqueness_witness :
    ((reconcile 2000000000000000000 [exTech] [] [neOther]).store.map evKey).Nodup :=
  reconcile_key_uniqueness 2000000000000000000 [exTech] [] [neOther] (by decide)

/-- Disjointness instantiated on a run that both adds and changes. -/
theorem added_changed_key_disjoint_witness :
    evKey neOther ≠ evKey neTechApr :=
  added_changed_key_disjoint 2000000000000000000 [exTech] [] [neTechApr, neOther]
    (by decide) neOther (by decide) neTechApr (by decide)

/-- The carry characterization instantiated on a matched candidate whose
dates moved and whose persisted sector is empty. -/
theorem date_change_carry_witness :
    ∃ r, (candStep ⟨[exTech], bykey0 [exTech], [], []⟩ neTechAprF).changed = [] ++ [r] ∧
      (candStep ⟨[exTech], bykey0 [exTech], [], []⟩ neTechAprF).existing =
        [exTech].set
          ([exTech].findIdx (fun e => decide (e = [exTech].getD 0 defaultEvent))) r ∧
      r.exhibitors = ([exTech].getD 0 defaultEvent).exhibitors ∧
      r.free = ([exTech].getD 0 defaultEvent).free ∧
      r.sector = (if ([exTech].getD 0 defaultEvent).sector = [] then neTechAprF.sector
                  else ([exTech].getD 0 defaultEvent).sector) ∧
      r.title = neTechAprF.title ∧ r.start = neTechAprF.start ∧ r.end_ = neTechAprF.end_ ∧
      r.url = neTechAprF.url :=
  date_change_carry ⟨[exTech], bykey0 [exTech], [], []⟩ neTechAprF 0 (by decide) (by decide)

/-- The skip characterization instantiated on an entry with a missing end. -/
theorem manual_entry_skip_witness :
    (processManualEntry SECTOR_DEFS_default ⟨some "Expo", some "2025-03-14", none, none, none⟩ =
        .ok none ↔
      (pyStrip "Expo" = "" ∨
        (some (⟨2025, 3, 14, 0, 0, 0, 0, some Tz.london⟩ : PyDateTime)) = none)) ∧
    (∀ s, (some (⟨2025, 3, 14, 0, 0, 0, 0, some Tz.london⟩ : PyDateTime)) = some s →
      (none : Option PyDateTime) = none → pyStrip "Expo" ≠ "" →
      processManualEntry SECTOR_DEFS_default ⟨some "Expo", some "2025-03-14", none, none, none⟩ =
        .ok (some (unify SECTOR_DEFS_default (pyStrip "Expo") (isoformat s)
          (isoformat (addHours8 s)) "London" ""))) ∧
    (processManualEntry SECTOR_DEFS_default ⟨some "Expo", some "2025-03-14", none, none, none⟩ =
        .ok none →
      ∀ pre, load_manual_events SECTOR_DEFS_default
          (pre ++ [⟨some "Expo", some "2025-03-14", none, none, none⟩]) =
        load_manual_events SECTOR_DEFS_default pre) :=
  manual_entry_skip SECTOR_DEFS_default ⟨some "Expo", some "2025-03-14", none, none, none⟩
    (some ⟨2025, 3, 14, 0, 0, 0, 0, some Tz.london⟩) none (by rfl) (by rfl)

/-- The body-first fallback instantiated on a page whose body and title
both carry a date. -/
theorem freetext_body_first_witness :
    freeTextFallback SECTOR_DEFS_default "http://x" "Expo 3 Mar 2025" "Join 5 Apr 2025" =
      .ok [unify SECTOR_DEFS_default (pyStrip "Expo 3 Mar 2025")
        (isoformat ⟨2025, 4, 5, 9, 0, 0, 0, some Tz.london⟩)
        (isoformat ⟨2025, 4, 5, 17, 0, 0, 0, some Tz.london⟩) "London" "http://x"] :=
  freetext_body_first SECTOR_DEFS_default "http://x" "Expo 3 Mar 2025" "Join 5 Apr 2025"
    ⟨2025, 4, 5, 9, 0, 0, 0, some Tz.london⟩ ⟨2025, 4, 5, 17, 0, 0, 0, some Tz.london⟩
    (by rfl)

/-- Both precedence arms instantiated on concrete text. -/
theorem iso_fragment_precedence_witness :
    (parse_date_range_text "10-12 Mar 2025 2025-03-20" =
      (match pyDatetime (natOfDigits ("2025".data)) (natOfDigits ("03".data))
          (natOfDigits ("20".data)) 9 0 0 0 (some LONDON_TZ) with
       | .ok start => .ok (some (start, addHours8 start))
       | .error err => .error err)) ∧
    (parse_date_range_text "10-12 Mar 2025" =
      (match pyDatetime (natOfDigits ("2025".data)) 3 (natOfDigits ("10".data))
          9 0 0 0 (some LONDON_TZ) with
       | .ok s =>
         (match pyDatetime (natOfDigits ("2025".data)) 3 (natOfDigits ("12".data))
             17 0 0 0 (some LONDON_TZ) with
          | .ok e2 => .ok (some (s, e2))
          | .error err => .error err)
       | .error err => .error err)) :=
  ⟨iso_fragment_precedence.1 "10-12 Mar 2025 2025-03-20" "2025" "03" "20" (by rfl),
   iso_fragment_precedence.2 "10-12 Mar 2025" "10" "12" "Mar" "2025" 3
     (by rfl) (by rfl) (by rfl)⟩

/-- Fail-open retention instantiated on an unparsable start. -/
theorem horizon_pruning_spec_witness :
    evUnparsable ∈ prune (horizonOf 0) [evUnparsable] :=
  (horizon_pruning_spec 0 [evUnparsable] evUnparsable (by decide)).2.1 (by rfl)

/-- Retention of a far-past record instantiated concretely. -/
theorem pruning_no_lower_bound_witness :
    evPast ∈ prune (horizonOf 0) [evPast] ∧
    (∀ t : Int, within_window 0 t = true ↔ 0 ≤ t ∧ t ≤ 0 + 84 * 86400000000) :=
  pruning_no_lower_bound 0 [evPast] evPast (by decide)
    ⟨1900, 1, 1, 0, 0, 0, 0, some (Tz.fixed 0)⟩ (by rfl) (by decide)

/-- A candidate beyond the horizon is re-added by a second run with the
same inputs: the unqualified idempotence claim fails. -/
theorem reconcile_idem_cx :
    (reconcile (horizonOf 1751328000000000) [] [] [evFar]).store = [] ∧
    (reconcile (horizonOf 1751328000000000) [] [] [evFar]).added = [evFar] ∧
    (reconcile (horizonOf 1751328000000000)
        (reconcile (horizonOf 1751328000000000) [] [] [evFar]).store [] [evFar]).added =
      [evFar] :=
  ⟨by rfl, by rfl, by rfl⟩

/-- With duplicate-key candidates one key lands in both reports. -/
theorem added_changed_cx :
    (reconcile 2000000000000000000 [] [] [exTech, neTechApr]).added.map evKey =
      [("tech expo", "Olympia")] ∧
    (reconcile 2000000000000000000 [] [] [exTech, neTechApr]).changed.map evKey =
      [("tech expo", "Olympia")] :=
  ⟨by decide, by decide⟩

/-- An empty persisted sector is replaced by the candidate sector on a date
change, contradicting an unconditional carry reading. -/
theorem date_change_sector_cx :
    (candStep ⟨[exTech], bykey0 [exTech], [], []⟩ neTechAprF).changed.map Event.sector =
      [["Fintech"]] ∧ exTech.sector = [] :=
  ⟨by decide, by decide⟩

/-- A manual entry whose end precedes its start is loaded unchanged. -/
theorem end_ge_start_cx :
    processManualEntry SECTOR_DEFS_default
        ⟨some "Expo", some "2025-03-14", some "2025-03-12", none, none⟩ =
      .ok (some ⟨"Expo", "2025-03-14T00:00:00+00:00", "2025-03-12T00:00:00+00:00", "",
        "London", [], [], false⟩) ∧
    pyFromIso (pyReplaceZ "2025-03-14T00:00:00+00:00") =
      some ⟨2025, 3, 14, 0, 0, 0, 0, some (Tz.fixed 0)⟩ ∧
    pyFromIso (pyReplaceZ "2025-03-12T00:00:00+00:00") =
      some ⟨2025, 3, 12, 0, 0, 0, 0, some (Tz.fixed 0)⟩ ∧
    dtKey ⟨2025, 3, 12, 0, 0, 0, 0, some (Tz.fixed 0)⟩ <
      dtKey ⟨2025, 3, 14, 0, 0, 0, 0, some (Tz.fixed 0)⟩ :=
  ⟨by rfl, by rfl, by rfl, by decide⟩

/-- A manual entry with no end is not skipped: it is loaded with end equal
to start plus eight hours. -/
theorem manual_end_missing_cx :
    processManualEntry SECTOR_DEFS_default ⟨some "Expo", some "2025-03-14", none, none, none⟩ =
      .ok (some ⟨"Expo", "2025-03-14T00:00:00+00:00", "2025-03-14T08:00:00+00:00", "",
        "London", [], [], false⟩) := by
  rfl

/-- With a date in both title and body, the emitted record carries the body
dates, not the title dates. -/
theorem freetext_order_cx :
    freeTextFallback SECTOR_DEFS_default "http://x" "Expo 3 Mar 2025" "Join 5 Apr 2025" =
      .ok [⟨"Expo 3 Mar 2025", "2025-04-05T09:00:00+01:00", "2025-04-05T17:00:00+01:00",
        "http://x", "London", [], [], false⟩] ∧
    parse_date_range_text "Expo 3 Mar 2025" =
      .ok (some (⟨2025, 3, 3, 9, 0, 0, 0, some Tz.london⟩,
        ⟨2025, 3, 3, 17, 0, 0, 0, some Tz.london⟩)) :=
  ⟨by rfl, by rfl⟩

/-- A matching day range loses to a bare ISO fragment in the same text. -/
theorem iso_precedence_cx :
    parse_date_range_text "10-12 Mar 2025 2025-03-20" =
      .ok (some (⟨2025, 3, 20, 9, 0, 0, 0, some Tz.london⟩,
        ⟨2025, 3, 20, 17, 0, 0, 0, some Tz.london⟩)) ∧
    reSearch DATE_RANGE (normalizeDashes "10-12 Mar 2025 2025-03-20").data =
      some ["10", "12", "Mar", "2025"] :=
  ⟨by rfl, by rfl⟩
